import Mathlib

/-!
Verification of the `nesterow/limiter` bounded-concurrency task runner
(`src/dist/limiter.js`) against its natural-language specification.

The JavaScript code runs on a single-threaded cooperative scheduler.  We
embed it as a deterministic state-transition semantics:

* A task callback is identified by a natural-number id; an *environment*
  `env : ℕ → ℕ → Option ε` fixes the outcome of callback `cb` at its
  `n`-th invocation (`none` = the promise fulfils, `some e` = it rejects
  with error `e`).
* The in-flight promises created by `process` are recorded together with
  their (already determined) settlement outcome; they settle, in creation
  order, at the next drain (`#execute`), which is where the code itself
  joins on them via `Promise.all`.
* Ghost fields (`log`, `counts`, `batches`, `sink`) record the observable
  history: callback invocation starts, every value taken by
  `#promisesCount`, the size of each drained batch, and every call of the
  `onError` sink.

The rate gate `#limitRps` and the error class `LimiterRetryError` are
embedded separately (they are orthogonal to the scheduling state).
-/

namespace Limiter

/-- Constructor options of the `Limiter` class (`limit`, `maxRetry`, and
whether an `onError` sink was supplied).  `rps` only influences timing and
is modelled separately by `limitRps`. -/
structure Config where
  limit : ℕ
  maxRetry : ℕ
  onError : Bool
deriving DecidableEq, Repr

/-- An entry of `#retryQueue`: `{ callback, retries, error }`. -/
structure RItem (ε : Type) where
  callback : ℕ
  retries : ℕ
  error : ε
deriving DecidableEq, Repr

/-- An argument of `process(...callbacks)`: a plain task callback, a retry
item produced by a previous cycle, or a falsy value (`callbacks.pop()`
returning a falsy item stops the admission loop, exactly like the
`undefined` returned on an empty array). -/
inductive Item (ε : Type) where
  | task (cb : ℕ)
  | retry (r : RItem ε)
  | falsy
deriving DecidableEq, Repr

/-- A tracked in-flight operation: the promise pushed onto `#promises`.
`outcome` is its settlement result; `retriesIfFail` is the value
`item.retries ?? this.#maxRetry` captured by the closure, pushed to the
retry queue if the callback fails while `maxRetry > 0`. -/
structure Prom (ε : Type) where
  cb : ℕ
  outcome : Option ε
  retriesIfFail : ℕ
deriving DecidableEq, Repr

/-- Errors observable from `process`: a raw task error, or the
`LimiterRetryError` thrown/sunk on retry exhaustion, carrying the original
error as its cause. -/
inductive LErr (ε : Type) where
  | raw (e : ε)
  | retryExceeded (cause : ε)
deriving DecidableEq, Repr

/-- Result of a `process` call: fulfilled, rejected with an error, or the
step budget of the embedding ran out (never happens for sufficient fuel). -/
inductive PResult (ε : Type) where
  | ok
  | thrown (e : LErr ε)
  | outOfFuel
deriving DecidableEq, Repr

/-- The mutable state of a `Limiter` instance, plus ghost history fields
(`log`, `counts`, `batches`, `sink`) recording the observable trace. -/
structure St (ε : Type) where
  promisesCount : ℕ
  promises : List (Prom ε)
  retryQueue : List (RItem ε)
  processing : Bool
  log : List ℕ
  counts : List ℕ
  batches : List ℕ
  sink : List (LErr ε)
deriving DecidableEq, Repr

/-- Fresh `Limiter` state right after construction. -/
def initSt (ε : Type) : St ε :=
  ⟨0, [], [], false, [], [], [], []⟩

/-- The `length` getter: `get length() { return this.#promisesCount; }`. -/
def St.len {ε : Type} (st : St ε) : ℕ := st.promisesCount

/-- The `isProcessing` getter: `get isProcessing() { return this.#processing; }`. -/
def St.isProcessing {ε : Type} (st : St ε) : Bool := st.processing

/-- The retry-queue entry produced when a tracked operation fails:
pushed only when `maxRetry > 0` (`if (this.#maxRetry > 0) { this.#retryQueue.push(...) }`). -/
def queued {ε : Type} (cfg : Config) (p : Prom ε) : Option (RItem ε) :=
  if 0 < cfg.maxRetry then p.outcome.map (fun e => RItem.mk p.cb p.retriesIfFail e)
  else none

/-- Settlement of one tracked operation during a drain: decrements
`#promisesCount` (both the success and failure branch do) and, on failure
with `maxRetry > 0`, pushes a retry item.  The ghost field `counts`
records the new counter value. -/
def settleOne {ε : Type} (cfg : Config) (st : St ε) (p : Prom ε) : St ε :=
  { st with
    promisesCount := st.promisesCount - 1
    counts := st.counts ++ [st.promisesCount - 1]
    retryQueue := st.retryQueue ++ (queued cfg p).toList }

/-- The rejection list a drain observes: with `maxRetry = 0` a failing
operation rethrows, so its promise rejects; with `maxRetry > 0` the
failure is swallowed into the retry queue and the promise fulfils. -/
def pendErrs {ε : Type} (cfg : Config) (st : St ε) : List ε :=
  if cfg.maxRetry = 0 then st.promises.filterMap (fun p => p.outcome) else []

/-- `#execute()`: `await Promise.all(this.#promises)` settles every
tracked operation; on rejection, without `onError` the state is cleaned
(`#promises = []`, `#processing = false`) and the first rejection is
rethrown; with `onError` each rejected promise is popped and its error
forwarded to the sink (hence sink order is the reverse of creation
order). -/
def executeB {ε : Type} (cfg : Config) (st : St ε) : St ε × Option (LErr ε) :=
  let batch := st.promises
  let st1 : St ε := { st with batches := st.batches ++ [batch.length] }
  let st2 := batch.foldl (settleOne cfg) st1
  match pendErrs cfg st with
  | [] => ({ st2 with promises := [] }, none)
  | e :: rest =>
    if cfg.onError then
      ({ st2 with promises := []
                  sink := st2.sink ++ ((e :: rest).reverse.map LErr.raw) }, none)
    else
      ({ st2 with promises := [], processing := false }, some (LErr.raw e))

/-- The drain call guarding the tail of `process`:
`if (this.#promises.length > 0) await this.#execute()`. -/
def drainPhase {ε : Type} (cfg : Config) (st : St ε) : St ε × Option (LErr ε) :=
  if 0 < st.promises.length then executeB cfg st else (st, none)

/-- Spawning one admitted item: increments `#promisesCount`, invokes the
callback (recorded in `log`; its outcome is determined by the environment
at the current attempt index) and pushes the tracked operation. -/
def admitOne {ε : Type} (env : ℕ → ℕ → Option ε) (st : St ε) (cb : ℕ) (rif : ℕ) : St ε :=
  { st with
    promisesCount := st.promisesCount + 1
    counts := st.counts ++ [st.promisesCount + 1]
    log := st.log ++ [cb]
    promises := st.promises ++ [Prom.mk cb (env cb (st.log.count cb)) rif] }

/-- The drain guarding each admission:
`if (this.#promisesCount >= this.#limit) await this.#execute()`. -/
def maybeDrain {ε : Type} (cfg : Config) (st : St ε) : St ε × Option (LErr ε) :=
  if cfg.limit ≤ st.promisesCount then executeB cfg st else (st, none)

/-- Propagation of a drain rejection out of the admission loop
(`await this.#execute()` rethrowing aborts `process`). -/
def bindAdm {ε : Type} (r : St ε × Option (LErr ε))
    (k : St ε → St ε × Option (LErr ε)) : St ε × Option (LErr ε) :=
  match r with
  | (st, some e) => (st, some e)
  | (st, none) => k st

def admitLoop {ε : Type} (cfg : Config) (env : ℕ → ℕ → Option ε) :
    List (Item ε) → St ε → St ε × Option (LErr ε)
  | [], st => (st, none)
  | Item.falsy :: _, st => (st, none)
  | Item.task cb :: rest, st =>
    bindAdm (maybeDrain cfg st)
      (fun st1 => admitLoop cfg env rest (admitOne env st1 cb cfg.maxRetry))
  | Item.retry r :: rest, st =>
    bindAdm (maybeDrain cfg st)
      (fun st1 => admitLoop cfg env rest (admitOne env st1 r.callback r.retries))

/-- The retry-collection loop at the tail of `process`, applied to the pop
order of `#retryQueue`.  An item with retries left is decremented and
collected for resubmission; an exhausted item is forwarded to `onError`
as a `LimiterRetryError`, or — without a sink — thrown after clearing
`#promises`, `#retryQueue` and the `processing` flag. -/
def collectLoop {ε : Type} (cfg : Config) :
    List (RItem ε) → St ε → List (RItem ε) → St ε × (List (RItem ε) × Option (LErr ε))
  | [], st, acc => (st, (acc, none))
  | item :: rest, st, acc =>
    if 0 < item.retries then
      collectLoop cfg rest st (acc ++ [RItem.mk item.callback (item.retries - 1) item.error])
    else if cfg.onError then
      collectLoop cfg rest { st with sink := st.sink ++ [LErr.retryExceeded item.error] } acc
    else
      ({ st with promises := [], retryQueue := [], processing := false },
       (acc, some (LErr.retryExceeded item.error)))

/-- Propagation of a rejection out of `process` itself: an error thrown
by a phase rejects the `process` promise. -/
def bindErr {ε : Type} (r : St ε × Option (LErr ε))
    (k : St ε → St ε × PResult ε) : St ε × PResult ε :=
  match r with
  | (st, some e) => (st, PResult.thrown e)
  | (st, none) => k st

/-- Propagation of the retry-collection result. -/
def bindCollect {ε : Type} (r : St ε × (List (RItem ε) × Option (LErr ε)))
    (k : St ε → List (RItem ε) → St ε × PResult ε) : St ε × PResult ε :=
  match r with
  | (st, (_, some e)) => (st, PResult.thrown e)
  | (st, (items, none)) => k st items

/-- The trailing `this.#processing = false` after a successful recursive
resubmission returns. -/
def afterOk {ε : Type} (r : St ε × PResult ε) : St ε × PResult ε :=
  match r with
  | (st, PResult.ok) => ({ st with processing := false }, PResult.ok)
  | r => r

/-- `process(...callbacks)`: sets the `processing` flag, runs the
admission loop over the popped (reversed) argument list, drains the final
partial batch, then resolves the retry queue, recursing on the collected
retry items.  `fuel` bounds the recursion depth of the embedding; the
recursion of the code itself is bounded by the retry budgets. -/
def processFuel {ε : Type} (cfg : Config) (env : ℕ → ℕ → Option ε) :
    ℕ → List (Item ε) → St ε → St ε × PResult ε
  | 0, _, st => (st, PResult.outOfFuel)
  | Nat.succ fuel, items, st =>
    bindErr (admitLoop cfg env items.reverse { st with processing := true }) (fun st1 =>
      bindErr (drainPhase cfg st1) (fun st2 =>
        if st2.retryQueue.length = 0 then
          ({ st2 with processing := false }, PResult.ok)
        else
          bindCollect (collectLoop cfg st2.retryQueue.reverse { st2 with retryQueue := [] } [])
            (fun st3 retryItems =>
              if retryItems.length = 0 then
                ({ st3 with processing := false }, PResult.ok)
              else
                afterOk (processFuel cfg env fuel (retryItems.map Item.retry) st3))))

/-- `done()`: `if (this.isProcessing) { await delay(10); await this.done(); }`.
The argument is the stream of successive reads of `isProcessing`; the
result counts the 10 ms poll delays taken before resolution (`none` if
the flag never read false within the observed stream). -/
def doneWaits : List Bool → Option ℕ
  | [] => none
  | b :: rest => if b then (doneWaits rest).map (fun n => n + 1) else some 0

/-- Result of the rate gate `#limitRps`: the callback is invoked without
consulting the clock (`rps` unset), or it is dispatched at time `t` with
`#tick` updated to `newTick`, or the observed clock samples ran out while
the gate was still waiting. -/
inductive RpsOutcome where
  | immediate
  | dispatched (t : ℚ) (newTick : ℚ)
  | waiting
deriving DecidableEq, Repr

/-- The recursive body of `#limitRps` for a set `rps`: at each level one
`Date.now()` sample is read (the list holds the successive samples); if
`now - tick < period` the gate sleeps `period - (now - tick)` and
re-checks, otherwise it sets `#tick = now` and invokes the callback. -/
def limitRpsGo (period : ℚ) (tick : ℚ) : List ℚ → RpsOutcome
  | [] => RpsOutcome.waiting
  | now :: rest =>
    if now - tick < period then limitRpsGo period tick rest
    else RpsOutcome.dispatched now now

/-- `#limitRps(callback)`: `if (!this.#rps) return await callback()` —
otherwise gate on `1000 / rps` milliseconds since `#tick`. -/
def limitRps (rps : Option ℚ) (tick : ℚ) (nows : List ℚ) : RpsOutcome :=
  match rps with
  | none => RpsOutcome.immediate
  | some r => limitRpsGo (1000 / r) tick nows

/-- Marker distinguishing plain `Error` instances from instances of the
`LimiterRetryError` subclass (the `instanceof` test). -/
inductive ErrClass where
  | error
  | retryError
deriving DecidableEq, Repr

/-- A JavaScript error object: class marker, `name`, `message`, optional
`stack` and optional `cause`. -/
inductive JsErr : Type where
  | mk (cls : ErrClass) (name : String) (message : String)
       (stack : Option String) (cause : Option JsErr)

/-- Class marker of an error object. -/
def JsErr.cls : JsErr → ErrClass
  | JsErr.mk c _ _ _ _ => c

/-- The `name` property of an error object. -/
def JsErr.name : JsErr → String
  | JsErr.mk _ n _ _ _ => n

/-- The `message` property of an error object. -/
def JsErr.message : JsErr → String
  | JsErr.mk _ _ m _ _ => m

/-- The `stack` property of an error object. -/
def JsErr.stack : JsErr → Option String
  | JsErr.mk _ _ _ s _ => s

/-- The `cause` property of an error object. -/
def JsErr.cause : JsErr → Option JsErr
  | JsErr.mk _ _ _ _ c => c

/-- The `LimiterRetryError` constructor: `super(message)` builds an error
with an engine-supplied fresh stack (`freshStack`), `name` is set to
`"RetryError"`, and when an originating `error` is passed, `stack` is
overwritten with `error.stack` and `cause` set to `error`. -/
def LimiterRetryError (freshStack : Option String) (message : String)
    (error : Option JsErr) : JsErr :=
  match error with
  | none => JsErr.mk ErrClass.retryError "RetryError" message freshStack none
  | some e => JsErr.mk ErrClass.retryError "RetryError" message e.stack (some e)

/-- The callback a submitted item carries: `item.callback || item`. -/
def Item.cbOf {ε : Type} : Item ε → ℕ
  | Item.task cb => cb
  | Item.retry r => r.callback
  | Item.falsy => 0

/-- The retry budget captured for a submitted item:
`item.retries ?? this.#maxRetry`. -/
def Item.rifOf {ε : Type} (cfg : Config) : Item ε → ℕ
  | Item.task _ => cfg.maxRetry
  | Item.retry r => r.retries
  | Item.falsy => 0

/-- The retry items the currently tracked operations will push when they
all fail with the per-callback error `errOf`. -/
def promInfo {ε : Type} (errOf : ℕ → ε) (st : St ε) : List (RItem ε) :=
  st.promises.map (fun p => RItem.mk p.cb p.retriesIfFail (errOf p.cb))

/-- The retry item a submitted item turns into when its callback fails
with the per-callback error `errOf`. -/
def itemInfo {ε : Type} (cfg : Config) (errOf : ℕ → ε) (i : Item ε) : RItem ε :=
  RItem.mk (Item.cbOf i) (Item.rifOf cfg i) (errOf (Item.cbOf i))

/-- Shape of the scheduler state along a run in which every tracked
operation fulfils: the counter matches the number of pending operations,
all of them fulfil, and the retry queue is empty. -/
def SuccessShape {ε : Type} (st : St ε) (c : ℕ) : Prop :=
  st.promisesCount = c ∧ st.promises.length = c
  ∧ (∀ p ∈ st.promises, p.outcome = none) ∧ st.retryQueue = []

/-- Abstract recurrence of the admission loop on non-failing tasks:
`loopSim L n c` returns the batch sizes drained inside the loop and the
in-flight count left when the loop exits, starting from in-flight count
`c` with `n` tasks left to admit. -/
def loopSim (L : ℕ) : ℕ → ℕ → List ℕ × ℕ
  | 0, c => ([], c)
  | Nat.succ n, c =>
    if L ≤ c then
      let p := loopSim L n 1
      (L :: p.1, p.2)
    else loopSim L n (c + 1)

/-- Batch sizes of a whole `process` call on non-failing tasks: the
batches drained inside the admission loop followed by the final partial
drain (`if (this.#promises.length > 0) await this.#execute()`). -/
def fullBatches (L : ℕ) (n c : ℕ) : List ℕ :=
  (loopSim L n c).1 ++ (if (loopSim L n c).2 = 0 then [] else [(loopSim L n c).2])

end Limiter

namespace Limiter

variable {ε : Type}

@[simp] lemma bindAdm_some (st : St ε) (e : LErr ε)
    (k : St ε → St ε × Option (LErr ε)) : bindAdm (st, some e) k = (st, some e) := rfl

@[simp] lemma bindAdm_none (st : St ε) (k : St ε → St ε × Option (LErr ε)) :
    bindAdm (st, none) k = k st := rfl

@[simp] lemma bindErr_some (st : St ε) (e : LErr ε)
    (k : St ε → St ε × PResult ε) : bindErr (st, some e) k = (st, PResult.thrown e) := rfl

@[simp] lemma bindErr_none (st : St ε) (k : St ε → St ε × PResult ε) :
    bindErr (st, none) k = k st := rfl

@[simp] lemma bindCollect_some (st : St ε) (l : List (RItem ε)) (e : LErr ε)
    (k : St ε → List (RItem ε) → St ε × PResult ε) :
    bindCollect (st, (l, some e)) k = (st, PResult.thrown e) := rfl

@[simp] lemma bindCollect_none (st : St ε) (l : List (RItem ε))
    (k : St ε → List (RItem ε) → St ε × PResult ε) :
    bindCollect (st, (l, none)) k = k st l := rfl

@[simp] lemma afterOk_ok (st : St ε) :
    afterOk (st, (PResult.ok : PResult ε)) = ({ st with processing := false }, PResult.ok) := rfl

@[simp] lemma afterOk_thrown (st : St ε) (e : LErr ε) :
    afterOk (st, PResult.thrown e) = (st, PResult.thrown e) := rfl

@[simp] lemma afterOk_outOfFuel (st : St ε) :
    afterOk (st, (PResult.outOfFuel : PResult ε)) = (st, PResult.outOfFuel) := rfl

lemma foldl_settle_log (cfg : Config) (l : List (Prom ε)) (st : St ε) :
    (l.foldl (settleOne cfg) st).log = st.log := by
  induction l generalizing st with
  | nil => rfl
  | cons p rest ih => rw [List.foldl_cons, ih]; rfl

lemma foldl_settle_promises (cfg : Config) (l : List (Prom ε)) (st : St ε) :
    (l.foldl (settleOne cfg) st).promises = st.promises := by
  induction l generalizing st with
  | nil => rfl
  | cons p rest ih => rw [List.foldl_cons, ih]; rfl

lemma foldl_settle_batches (cfg : Config) (l : List (Prom ε)) (st : St ε) :
    (l.foldl (settleOne cfg) st).batches = st.batches := by
  induction l generalizing st with
  | nil => rfl
  | cons p rest ih => rw [List.foldl_cons, ih]; rfl

lemma foldl_settle_sink (cfg : Config) (l : List (Prom ε)) (st : St ε) :
    (l.foldl (settleOne cfg) st).sink = st.sink := by
  induction l generalizing st with
  | nil => rfl
  | cons p rest ih => rw [List.foldl_cons, ih]; rfl

lemma foldl_settle_processing (cfg : Config) (l : List (Prom ε)) (st : St ε) :
    (l.foldl (settleOne cfg) st).processing = st.processing := by
  induction l generalizing st with
  | nil => rfl
  | cons p rest ih => rw [List.foldl_cons, ih]; rfl

lemma foldl_settle_count (cfg : Config) (l : List (Prom ε)) (st : St ε) :
    (l.foldl (settleOne cfg) st).promisesCount = st.promisesCount - l.length := by
  induction l generalizing st with
  | nil => rfl
  | cons p rest ih =>
    rw [List.foldl_cons, ih]
    simp only [settleOne, List.length_cons]
    omega

lemma foldl_settle_retryQueue (cfg : Config) (l : List (Prom ε)) (st : St ε) :
    (l.foldl (settleOne cfg) st).retryQueue
      = st.retryQueue ++ l.filterMap (queued cfg) := by
  induction l generalizing st with
  | nil => simp
  | cons p rest ih =>
    rw [List.foldl_cons, ih]
    simp only [settleOne, List.filterMap_cons]
    cases h : queued cfg p <;> simp [h]

lemma foldl_settle_counts_le (cfg : Config) (B : ℕ) (l : List (Prom ε)) (st : St ε)
    (hc : ∀ x ∈ st.counts, x ≤ B) (hn : st.promisesCount ≤ B) :
    ∀ x ∈ (l.foldl (settleOne cfg) st).counts, x ≤ B := by
  induction l generalizing st with
  | nil => exact hc
  | cons p rest ih =>
    rw [List.foldl_cons]
    refine ih _ ?_ ?_
    · intro x hx
      simp only [settleOne, List.mem_append, List.mem_singleton] at hx
      rcases hx with hx | hx
      · exact hc x hx
      · omega
    · simp only [settleOne]
      omega

end Limiter

namespace Limiter

variable {ε : Type}

lemma executeB_promises (cfg : Config) (st : St ε) :
    (executeB cfg st).1.promises = [] := by
  unfold executeB
  cases hpe : pendErrs cfg st with
  | nil => rfl
  | cons e rest => by_cases h : cfg.onError <;> simp [h]

lemma executeB_log (cfg : Config) (st : St ε) :
    (executeB cfg st).1.log = st.log := by
  unfold executeB
  cases hpe : pendErrs cfg st with
  | nil => simpa using foldl_settle_log cfg st.promises _
  | cons e rest =>
    by_cases h : cfg.onError <;> simpa [h] using foldl_settle_log cfg st.promises _

lemma executeB_batches (cfg : Config) (st : St ε) :
    (executeB cfg st).1.batches = st.batches ++ [st.promises.length] := by
  unfold executeB
  cases hpe : pendErrs cfg st with
  | nil => simpa using foldl_settle_batches cfg st.promises _
  | cons e rest =>
    by_cases h : cfg.onError <;> simpa [h] using foldl_settle_batches cfg st.promises _

lemma executeB_count (cfg : Config) (st : St ε) :
    (executeB cfg st).1.promisesCount = st.promisesCount - st.promises.length := by
  unfold executeB
  cases hpe : pendErrs cfg st with
  | nil => simpa using foldl_settle_count cfg st.promises _
  | cons e rest =>
    by_cases h : cfg.onError <;> simpa [h] using foldl_settle_count cfg st.promises _

lemma executeB_retryQueue (cfg : Config) (st : St ε) :
    (executeB cfg st).1.retryQueue
      = st.retryQueue ++ st.promises.filterMap (queued cfg) := by
  unfold executeB
  cases hpe : pendErrs cfg st with
  | nil => simpa using foldl_settle_retryQueue cfg st.promises _
  | cons e rest =>
    by_cases h : cfg.onError <;>
      simpa [h] using foldl_settle_retryQueue cfg st.promises _

lemma executeB_counts_le (cfg : Config) (B : ℕ) (st : St ε)
    (hc : ∀ x ∈ st.counts, x ≤ B) (hn : st.promisesCount ≤ B) :
    ∀ x ∈ (executeB cfg st).1.counts, x ≤ B := by
  have key : ∀ x ∈ (List.foldl (settleOne cfg)
      { st with batches := st.batches ++ [st.promises.length] } st.promises).counts, x ≤ B :=
    foldl_settle_counts_le cfg B st.promises _ hc hn
  unfold executeB
  cases hpe : pendErrs cfg st with
  | nil => exact key
  | cons e rest =>
    by_cases h : cfg.onError
    · simp only [h, if_true]
      exact key
    · simp only [h, Bool.false_eq_true, if_false]
      exact key

lemma executeB_none_of_onError (cfg : Config) (st : St ε) (h : cfg.onError = true) :
    (executeB cfg st).2 = none := by
  unfold executeB
  cases hpe : pendErrs cfg st with
  | nil => rfl
  | cons e rest => simp [h]

lemma executeB_sink_len_of_onError (cfg : Config) (st : St ε) (h : cfg.onError = true) :
    (executeB cfg st).1.sink.length = st.sink.length + (pendErrs cfg st).length := by
  unfold executeB
  cases hpe : pendErrs cfg st with
  | nil => simp [foldl_settle_sink, hpe]
  | cons e rest => simp [h, foldl_settle_sink, hpe]

lemma executeB_processing_of_onError (cfg : Config) (st : St ε) (h : cfg.onError = true) :
    (executeB cfg st).1.processing = st.processing := by
  unfold executeB
  cases hpe : pendErrs cfg st with
  | nil => simpa using foldl_settle_processing cfg st.promises _
  | cons e rest => simpa [h] using foldl_settle_processing cfg st.promises _

lemma pendErrs_of_success (cfg : Config) (st : St ε)
    (h : ∀ p ∈ st.promises, p.outcome = none) : pendErrs cfg st = [] := by
  unfold pendErrs
  split
  · exact List.filterMap_eq_nil_iff.mpr h
  · rfl

lemma queued_of_success (cfg : Config) (p : Prom ε) (h : p.outcome = none) :
    queued cfg p = none := by
  unfold queued
  split <;> simp [h]

lemma executeB_of_success (cfg : Config) (st : St ε)
    (h : ∀ p ∈ st.promises, p.outcome = none) :
    (executeB cfg st).2 = none
    ∧ (executeB cfg st).1.sink = st.sink
    ∧ (executeB cfg st).1.processing = st.processing
    ∧ (executeB cfg st).1.retryQueue = st.retryQueue := by
  have hq : st.promises.filterMap (queued cfg) = [] :=
    List.filterMap_eq_nil_iff.mpr (fun p hp => queued_of_success cfg p (h p hp))
  refine ⟨?_, ?_, ?_, ?_⟩
  · unfold executeB
    rw [pendErrs_of_success cfg st h]
  · unfold executeB
    rw [pendErrs_of_success cfg st h]
    simpa using foldl_settle_sink cfg st.promises _
  · unfold executeB
    rw [pendErrs_of_success cfg st h]
    simpa using foldl_settle_processing cfg st.promises _
  · rw [executeB_retryQueue, hq, List.append_nil]

lemma executeB_none_of_maxRetry_pos (cfg : Config) (st : St ε)
    (h : 0 < cfg.maxRetry) :
    (executeB cfg st).2 = none
    ∧ (executeB cfg st).1.sink = st.sink
    ∧ (executeB cfg st).1.processing = st.processing := by
  have hpe : pendErrs cfg st = [] := by
    unfold pendErrs
    simp [Nat.pos_iff_ne_zero.mp h]
  unfold executeB
  rw [hpe]
  exact ⟨rfl, by simpa using foldl_settle_sink cfg st.promises _,
         by simpa using foldl_settle_processing cfg st.promises _⟩

end Limiter

namespace Limiter

variable {ε : Type}

/-- Concurrency-safety invariant: the in-flight counter matches the
number of tracked operations, never exceeds the configured limit, and
the limit bounded every sampled value of the counter so far. -/
def Inv (cfg : Config) (st : St ε) : Prop :=
  st.promisesCount = st.promises.length
  ∧ st.promisesCount ≤ cfg.limit
  ∧ ∀ x ∈ st.counts, x ≤ cfg.limit

lemma executeB_count_zero (cfg : Config) (st : St ε)
    (h : st.promisesCount = st.promises.length) :
    (executeB cfg st).1.promisesCount = 0 := by
  rw [executeB_count, h, Nat.sub_self]

lemma executeB_Inv (cfg : Config) (st : St ε) (h : Inv cfg st) :
    Inv cfg (executeB cfg st).1 := by
  obtain ⟨h1, h2, h3⟩ := h
  refine ⟨?_, ?_, executeB_counts_le cfg cfg.limit st h3 h2⟩
  · rw [executeB_count_zero cfg st h1, executeB_promises]
    rfl
  · rw [executeB_count_zero cfg st h1]
    exact Nat.zero_le _

lemma drainPhase_Inv (cfg : Config) (st : St ε) (h : Inv cfg st) :
    Inv cfg (drainPhase cfg st).1 := by
  unfold drainPhase
  split
  · exact executeB_Inv cfg st h
  · exact h

lemma drainPhase_quiescent (cfg : Config) (st : St ε)
    (h : st.promisesCount = st.promises.length) :
    (drainPhase cfg st).1.promises = [] ∧ (drainPhase cfg st).1.promisesCount = 0 := by
  unfold drainPhase
  split
  · exact ⟨executeB_promises cfg st, executeB_count_zero cfg st h⟩
  · rename_i hlen
    have : st.promises = [] := by
      cases hp : st.promises
      · rfl
      · rw [hp] at hlen
        simp at hlen
    exact ⟨this, by rw [h, this]; rfl⟩

lemma admitOne_Inv (cfg : Config) (env : ℕ → ℕ → Option ε) (st : St ε) (cb rif : ℕ)
    (h1 : st.promisesCount = st.promises.length)
    (h2 : st.promisesCount < cfg.limit)
    (h3 : ∀ x ∈ st.counts, x ≤ cfg.limit) :
    Inv cfg (admitOne env st cb rif) := by
  refine ⟨?_, ?_, ?_⟩
  · simp [admitOne, h1]
  · simp only [admitOne]
    omega
  · intro x hx
    simp only [admitOne, List.mem_append, List.mem_singleton] at hx
    rcases hx with hx | hx
    · exact h3 x hx
    · omega

lemma maybeDrain_Inv (cfg : Config) (st : St ε) (hL : 1 ≤ cfg.limit)
    (h : Inv cfg st) :
    Inv cfg (maybeDrain cfg st).1
    ∧ (maybeDrain cfg st).1.promisesCount < cfg.limit := by
  unfold maybeDrain
  split
  · refine ⟨executeB_Inv cfg st h, ?_⟩
    rw [executeB_count_zero cfg st h.1]
    omega
  · rename_i hlim
    refine ⟨h, ?_⟩
    show st.promisesCount < cfg.limit
    omega

lemma admitLoop_Inv (cfg : Config) (env : ℕ → ℕ → Option ε)
    (hL : 1 ≤ cfg.limit) (l : List (Item ε)) (st : St ε) (h : Inv cfg st) :
    Inv cfg (admitLoop cfg env l st).1 := by
  induction l generalizing st with
  | nil => exact h
  | cons i rest ih =>
    cases i with
    | falsy => exact h
    | task cb =>
      simp only [admitLoop]
      obtain ⟨hi, hlt⟩ := maybeDrain_Inv cfg st hL h
      cases hmd : maybeDrain cfg st with
      | mk st1 e? =>
        rw [hmd] at hi hlt
        cases e? with
        | some e => simpa using hi
        | none =>
          rw [bindAdm_none]
          exact ih _ (admitOne_Inv cfg env st1 cb _ hi.1 hlt hi.2.2)
    | retry r =>
      simp only [admitLoop]
      obtain ⟨hi, hlt⟩ := maybeDrain_Inv cfg st hL h
      cases hmd : maybeDrain cfg st with
      | mk st1 e? =>
        rw [hmd] at hi hlt
        cases e? with
        | some e => simpa using hi
        | none =>
          rw [bindAdm_none]
          exact ih _ (admitOne_Inv cfg env st1 r.callback _ hi.1 hlt hi.2.2)

end Limiter

namespace Limiter

variable {ε : Type}

lemma collectLoop_Inv (cfg : Config) (l : List (RItem ε)) (st : St ε)
    (acc : List (RItem ε)) (hp : st.promises = []) (h : Inv cfg st) :
    Inv cfg (collectLoop cfg l st acc).1
    ∧ (collectLoop cfg l st acc).1.promises = [] := by
  induction l generalizing st acc with
  | nil => exact ⟨h, hp⟩
  | cons item rest ih =>
    obtain ⟨h1, h2, h3⟩ := h
    simp only [collectLoop]
    by_cases hr : 0 < item.retries
    · simp only [hr, if_true]
      exact ih st _ hp ⟨h1, h2, h3⟩
    · simp only [hr, if_false]
      by_cases ho : cfg.onError
      · simp only [ho, if_true]
        exact ih _ _ hp ⟨h1, h2, h3⟩
      · simp only [ho, Bool.false_eq_true, if_false]
        have hz : st.promisesCount = 0 := by rw [h1, hp]; rfl
        constructor
        · refine ⟨?_, ?_, h3⟩
          · show st.promisesCount = ([] : List (Prom ε)).length
            simp [hz]
          · show st.promisesCount ≤ cfg.limit
            omega
        · trivial

lemma processFuel_Inv (cfg : Config) (env : ℕ → ℕ → Option ε)
    (hL : 1 ≤ cfg.limit) :
    ∀ (fuel : ℕ) (items : List (Item ε)) (st : St ε), Inv cfg st →
      Inv cfg (processFuel cfg env fuel items st).1 := by
  intro fuel
  induction fuel with
  | zero => exact fun items st h => h
  | succ fuel ih =>
    intro items st h
    simp only [processFuel]
    have h0 : Inv cfg { st with processing := true } := h
    cases hal : admitLoop cfg env items.reverse { st with processing := true } with
    | mk st1 e? =>
      have hinv1 : Inv cfg st1 := by
        have := admitLoop_Inv cfg env hL items.reverse { st with processing := true } h0
        rwa [hal] at this
      cases e? with
      | some e => simpa using hinv1
      | none =>
        rw [bindErr_none]
        cases hdp : drainPhase cfg st1 with
        | mk st2 e2? =>
          have hinv2 : Inv cfg st2 := by
            have := drainPhase_Inv cfg st1 hinv1
            rwa [hdp] at this
          have hq2 : st2.promises = [] ∧ st2.promisesCount = 0 := by
            have := drainPhase_quiescent cfg st1 hinv1.1
            rwa [hdp] at this
          cases e2? with
          | some e => simpa using hinv2
          | none =>
            rw [bindErr_none]
            by_cases hrq : st2.retryQueue.length = 0
            · simp only [hrq, if_true]
              exact hinv2
            · simp only [hrq, if_false]
              have hinv2' : Inv cfg { st2 with retryQueue := [] } := hinv2
              cases hcl : collectLoop cfg st2.retryQueue.reverse
                  { st2 with retryQueue := [] } [] with
              | mk st3 p3 =>
                have hinv3 : Inv cfg st3 ∧ st3.promises = [] := by
                  have := collectLoop_Inv cfg st2.retryQueue.reverse
                    { st2 with retryQueue := [] } [] hq2.1 hinv2'
                  rwa [hcl] at this
                cases p3 with
                | mk retryItems e3? =>
                  cases e3? with
                  | some e => simpa using hinv3.1
                  | none =>
                    rw [bindCollect_none]
                    by_cases hri : retryItems.length = 0
                    · simp only [hri, if_true]
                      exact hinv3.1
                    · simp only [hri, if_false]
                      cases hrec : processFuel cfg env fuel (retryItems.map Item.retry) st3 with
                      | mk st4 r4 =>
                        have hinv4 : Inv cfg st4 := by
                          have := ih (retryItems.map Item.retry) st3 hinv3.1
                          rwa [hrec] at this
                        cases r4 <;> simpa using hinv4

end Limiter

namespace Limiter

variable {ε : Type}

lemma executeB_none_or_processing (cfg : Config) (st : St ε) :
    (executeB cfg st).2 = none ∨ (executeB cfg st).1.processing = false := by
  unfold executeB
  cases hpe : pendErrs cfg st with
  | nil => exact Or.inl rfl
  | cons e0 rest =>
    by_cases ho : cfg.onError
    · exact Or.inl (by simp [ho])
    · exact Or.inr (by simp [ho])

lemma maybeDrain_none_or_processing (cfg : Config) (st : St ε) :
    (maybeDrain cfg st).2 = none ∨ (maybeDrain cfg st).1.processing = false := by
  unfold maybeDrain
  split
  · exact executeB_none_or_processing cfg st
  · exact Or.inl rfl

lemma admitLoop_none_or_processing (cfg : Config) (env : ℕ → ℕ → Option ε)
    (l : List (Item ε)) (st : St ε) :
    (admitLoop cfg env l st).2 = none ∨ (admitLoop cfg env l st).1.processing = false := by
  induction l generalizing st with
  | nil => exact Or.inl rfl
  | cons i rest ih =>
    cases i with
    | falsy => exact Or.inl rfl
    | task cb =>
      simp only [admitLoop]
      cases hmd : maybeDrain cfg st with
      | mk st1 e? =>
        cases e? with
        | some e1 =>
          rcases maybeDrain_none_or_processing cfg st with hn | hp
          · rw [hmd] at hn
            exact absurd hn (by simp)
          · rw [hmd] at hp
            exact Or.inr hp
        | none =>
          rw [bindAdm_none]
          exact ih _
    | retry r =>
      simp only [admitLoop]
      cases hmd : maybeDrain cfg st with
      | mk st1 e? =>
        cases e? with
        | some e1 =>
          rcases maybeDrain_none_or_processing cfg st with hn | hp
          · rw [hmd] at hn
            exact absurd hn (by simp)
          · rw [hmd] at hp
            exact Or.inr hp
        | none =>
          rw [bindAdm_none]
          exact ih _

lemma drainPhase_none_or_processing (cfg : Config) (st : St ε) :
    (drainPhase cfg st).2 = none ∨ (drainPhase cfg st).1.processing = false := by
  unfold drainPhase
  split
  · exact executeB_none_or_processing cfg st
  · exact Or.inl rfl

lemma collectLoop_none_or_processing (cfg : Config) (l : List (RItem ε))
    (st : St ε) (acc : List (RItem ε)) :
    (collectLoop cfg l st acc).2.2 = none
    ∨ (collectLoop cfg l st acc).1.processing = false := by
  induction l generalizing st acc with
  | nil => exact Or.inl rfl
  | cons item rest ih =>
    simp only [collectLoop]
    by_cases hr : 0 < item.retries
    · rw [if_pos hr]
      exact ih _ _
    · rw [if_neg hr]
      by_cases ho : cfg.onError
      · rw [if_pos ho]
        exact ih _ _
      · rw [if_neg ho]
        exact Or.inr rfl

lemma processFuel_processing (cfg : Config) (env : ℕ → ℕ → Option ε) :
    ∀ (fuel : ℕ) (items : List (Item ε)) (st : St ε),
      (processFuel cfg env fuel items st).2 = PResult.outOfFuel
      ∨ (processFuel cfg env fuel items st).1.processing = false := by
  intro fuel
  induction fuel with
  | zero => exact fun items st => Or.inl rfl
  | succ fuel ih =>
    intro items st
    simp only [processFuel]
    cases hal : admitLoop cfg env items.reverse { st with processing := true } with
    | mk st1 e? =>
      cases e? with
      | some e =>
        rcases admitLoop_none_or_processing cfg env items.reverse
            { st with processing := true } with hn | hp
        · rw [hal] at hn
          exact absurd hn (by simp)
        · rw [hal] at hp
          exact Or.inr hp
      | none =>
        rw [bindErr_none]
        cases hdp : drainPhase cfg st1 with
        | mk st2 e2? =>
          cases e2? with
          | some e =>
            rcases drainPhase_none_or_processing cfg st1 with hn | hp
            · rw [hdp] at hn
              exact absurd hn (by simp)
            · rw [hdp] at hp
              exact Or.inr hp
          | none =>
            rw [bindErr_none]
            by_cases hrq : st2.retryQueue.length = 0
            · rw [if_pos hrq]
              exact Or.inr rfl
            · rw [if_neg hrq]
              cases hcl : collectLoop cfg st2.retryQueue.reverse
                  { st2 with retryQueue := [] } [] with
              | mk st3 p3 =>
                cases p3 with
                | mk retryItems e3? =>
                  cases e3? with
                  | some e =>
                    rcases collectLoop_none_or_processing cfg st2.retryQueue.reverse
                        { st2 with retryQueue := [] } [] with hn | hp
                    · rw [hcl] at hn
                      exact absurd hn (by simp)
                    · rw [hcl] at hp
                      exact Or.inr hp
                  | none =>
                    rw [bindCollect_none]
                    by_cases hri : retryItems.length = 0
                    · rw [if_pos hri]
                      exact Or.inr rfl
                    · rw [if_neg hri]
                      cases hrec : processFuel cfg env fuel (retryItems.map Item.retry) st3 with
                      | mk st4 r4 =>
                        cases r4 with
                        | ok => exact Or.inr rfl
                        | thrown e =>
                          rcases ih (retryItems.map Item.retry) st3 with hn | hp
                          · rw [hrec] at hn
                            exact absurd hn (by simp)
                          · rw [hrec] at hp
                            exact Or.inr hp
                        | outOfFuel => exact Or.inl rfl

end Limiter

namespace Limiter

variable {ε : Type}

lemma maybeDrain_none_of_onError (cfg : Config) (st : St ε) (ho : cfg.onError = true) :
    (maybeDrain cfg st).2 = none := by
  unfold maybeDrain
  split
  · exact executeB_none_of_onError cfg st ho
  · rfl

lemma admitLoop_none_of_onError (cfg : Config) (env : ℕ → ℕ → Option ε)
    (l : List (Item ε)) (st : St ε) (ho : cfg.onError = true) :
    (admitLoop cfg env l st).2 = none := by
  induction l generalizing st with
  | nil => rfl
  | cons i rest ih =>
    cases i with
    | falsy => rfl
    | task cb =>
      simp only [admitLoop]
      cases hmd : maybeDrain cfg st with
      | mk st1 e? =>
        cases e? with
        | some e1 =>
          have := maybeDrain_none_of_onError cfg st ho
          rw [hmd] at this
          exact absurd this (by simp)
        | none =>
          rw [bindAdm_none]
          exact ih _
    | retry r =>
      simp only [admitLoop]
      cases hmd : maybeDrain cfg st with
      | mk st1 e? =>
        cases e? with
        | some e1 =>
          have := maybeDrain_none_of_onError cfg st ho
          rw [hmd] at this
          exact absurd this (by simp)
        | none =>
          rw [bindAdm_none]
          exact ih _

lemma drainPhase_none_of_onError (cfg : Config) (st : St ε) (ho : cfg.onError = true) :
    (drainPhase cfg st).2 = none := by
  unfold drainPhase
  split
  · exact executeB_none_of_onError cfg st ho
  · rfl

lemma collectLoop_none_of_onError (cfg : Config) (l : List (RItem ε))
    (st : St ε) (acc : List (RItem ε)) (ho : cfg.onError = true) :
    (collectLoop cfg l st acc).2.2 = none := by
  induction l generalizing st acc with
  | nil => rfl
  | cons item rest ih =>
    simp only [collectLoop]
    by_cases hr : 0 < item.retries
    · rw [if_pos hr]
      exact ih _ _
    · rw [if_neg hr, if_pos ho]
      exact ih _ _

lemma processFuel_no_thrown_of_onError (cfg : Config) (env : ℕ → ℕ → Option ε)
    (ho : cfg.onError = true) :
    ∀ (fuel : ℕ) (items : List (Item ε)) (st : St ε) (e : LErr ε),
      (processFuel cfg env fuel items st).2 ≠ PResult.thrown e := by
  intro fuel
  induction fuel with
  | zero => intro items st e h; exact absurd h (by simp [processFuel])
  | succ fuel ih =>
    intro items st e
    simp only [processFuel]
    cases hal : admitLoop cfg env items.reverse { st with processing := true } with
    | mk st1 e? =>
      cases e? with
      | some e1 =>
        have := admitLoop_none_of_onError cfg env items.reverse
          { st with processing := true } ho
        rw [hal] at this
        exact absurd this (by simp)
      | none =>
        rw [bindErr_none]
        cases hdp : drainPhase cfg st1 with
        | mk st2 e2? =>
          cases e2? with
          | some e1 =>
            have := drainPhase_none_of_onError cfg st1 ho
            rw [hdp] at this
            exact absurd this (by simp)
          | none =>
            rw [bindErr_none]
            by_cases hrq : st2.retryQueue.length = 0
            · rw [if_pos hrq]
              simp
            · rw [if_neg hrq]
              cases hcl : collectLoop cfg st2.retryQueue.reverse
                  { st2 with retryQueue := [] } [] with
              | mk st3 p3 =>
                cases p3 with
                | mk retryItems e3? =>
                  cases e3? with
                  | some e1 =>
                    have := collectLoop_none_of_onError cfg st2.retryQueue.reverse
                      { st2 with retryQueue := [] } [] ho
                    rw [hcl] at this
                    exact absurd this (by simp)
                  | none =>
                    rw [bindCollect_none]
                    by_cases hri : retryItems.length = 0
                    · rw [if_pos hri]
                      simp
                    · rw [if_neg hri]
                      cases hrec : processFuel cfg env fuel (retryItems.map Item.retry) st3 with
                      | mk st4 r4 =>
                        cases r4 with
                        | ok => simp
                        | thrown e1 =>
                          have := ih (retryItems.map Item.retry) st3 e1
                          rw [hrec] at this
                          exact absurd rfl this
                        | outOfFuel => simp

/-- C1: for every `process` call submitting K tasks with configured
limit L (K > L, L ≥ 1), the in-flight count — the value of the `length`
property — never exceeds L at any suspension point during processing:
every sampled value of the counter, and the final one, is at most L. -/
theorem inflight_count_never_exceeds_limit (cfg : Config)
    (env : ℕ → ℕ → Option ε) (ids : List ℕ) (fuel : ℕ)
    (hL : 1 ≤ cfg.limit) (hK : cfg.limit < ids.length) :
    (∀ x ∈ (processFuel cfg env fuel (ids.map Item.task) (initSt ε)).1.counts,
        x ≤ cfg.limit)
    ∧ (processFuel cfg env fuel (ids.map Item.task) (initSt ε)).1.len ≤ cfg.limit := by
  have hinv : Inv cfg (initSt ε) := ⟨rfl, Nat.zero_le _, by intro x hx; cases hx⟩
  have h := processFuel_Inv cfg env hL fuel (ids.map Item.task) (initSt ε) hinv
  exact ⟨h.2.2, h.2.1⟩

/-- Witness for C1 at a concrete input: 3 tasks, limit 2. -/
theorem inflight_count_never_exceeds_limit_witness :
    (1 ≤ 2 ∧ 2 < ([1, 2, 3] : List ℕ).length)
    ∧ (∀ x ∈ (processFuel (Config.mk 2 0 false) (fun _ _ => (none : Option ℕ)) 2
          ([1, 2, 3].map Item.task) (initSt ℕ)).1.counts, x ≤ 2) :=
  ⟨⟨by decide, by decide⟩,
   (inflight_count_never_exceeds_limit (Config.mk 2 0 false)
     (fun _ _ => (none : Option ℕ)) [1, 2, 3] 2 (by decide) (by decide)).1⟩

/-- C9: `done()` tests `isProcessing` first and only polls when it is
true; after a completed `process` call the flag is false, so `done`
resolves immediately with zero 10 ms poll delays. -/
theorem done_after_process_resolves_immediately (cfg : Config)
    (env : ℕ → ℕ → Option ε) (fuel : ℕ) (items : List (Item ε)) (st : St ε)
    (rest : List Bool)
    (hc : (processFuel cfg env fuel items st).2 ≠ PResult.outOfFuel) :
    (processFuel cfg env fuel items st).1.isProcessing = false
    ∧ doneWaits ((processFuel cfg env fuel items st).1.isProcessing :: rest) = some 0 := by
  have hp : (processFuel cfg env fuel items st).1.processing = false := by
    rcases processFuel_processing cfg env fuel items st with hn | hp
    · exact absurd hn hc
    · exact hp
  refine ⟨hp, ?_⟩
  show doneWaits ((processFuel cfg env fuel items st).1.processing :: rest) = some 0
  rw [hp]
  rfl

/-- Witness for C9 at a concrete input: one succeeding task. -/
theorem done_after_process_resolves_immediately_witness :
    ((processFuel (Config.mk 1 0 false) (fun _ _ => (none : Option ℕ)) 1
        [Item.task 0] (initSt ℕ)).2 ≠ PResult.outOfFuel)
    ∧ doneWaits ((processFuel (Config.mk 1 0 false) (fun _ _ => (none : Option ℕ)) 1
        [Item.task 0] (initSt ℕ)).1.isProcessing :: [true, false]) = some 0 :=
  ⟨by decide,
   (done_after_process_resolves_immediately (Config.mk 1 0 false)
     (fun _ _ => (none : Option ℕ)) 1 [Item.task 0] (initSt ℕ) [true, false]
     (by decide)).2⟩

end Limiter

namespace Limiter

lemma limitRpsGo_dispatch (p tick t tk : ℚ) (nows : List ℚ)
    (h : limitRpsGo p tick nows = RpsOutcome.dispatched t tk) :
    p ≤ t - tick ∧ tk = t := by
  induction nows with
  | nil => exact absurd h (by simp [limitRpsGo])
  | cons now rest ih =>
    simp only [limitRpsGo] at h
    split at h
    · exact ih h
    · rename_i hge
      injection h with h1 h2
      subst h1
      subst h2
      exact ⟨le_of_not_lt hge, rfl⟩

/-- C7: with `rps` set, the gate dispatches a task only at a sampled
instant `t` with `t - tick ≥ 1000 / rps`, updating the tick to the
dispatch instant; it re-checks after each wait (shown by a clock trace
whose second sample is still gated); with `rps` unset the callback is
invoked immediately, with no gating. -/
theorem limitRps_gate :
    (∀ (r tick t tk : ℚ) (nows : List ℚ),
        limitRps (some r) tick nows = RpsOutcome.dispatched t tk →
        1000 / r ≤ t - tick ∧ tk = t)
    ∧ (∀ (tick : ℚ) (nows : List ℚ), limitRps none tick nows = RpsOutcome.immediate)
    ∧ limitRpsGo 10 0 [5, 8, 12] = RpsOutcome.dispatched 12 12 := by
  refine ⟨?_, fun tick nows => rfl, ?_⟩
  · intro r tick t tk nows h
    exact limitRpsGo_dispatch (1000 / r) tick t tk nows h
  · norm_num [limitRpsGo]

/-- Witness for C7: at `rps = 2` (period 500 ms) and tick 0, a dispatch
observed at time 500 satisfies the gate inequality. -/
theorem limitRps_gate_witness :
    limitRps (some 2) 0 [500] = RpsOutcome.dispatched 500 500
    ∧ (1000 / 2 ≤ 500 - (0 : ℚ) ∧ (500 : ℚ) = 500) := by
  have h : limitRps (some 2) 0 [500] = RpsOutcome.dispatched 500 500 := by
    norm_num [limitRps, limitRpsGo]
  exact ⟨h, limitRps_gate.1 2 0 500 500 [500] h⟩

/-- C8: the value built by the `LimiterRetryError` constructor from an
originating error is an instance of the exposed retry-error class, has
name `RetryError`, carries the given message, has the originating error
as its `cause`, and its `stack` is replaced by the originating error's
stack whenever the latter is present. -/
theorem limiterRetryError_shape (freshStack : Option String) (message : String)
    (e : JsErr) :
    (LimiterRetryError freshStack message (some e)).cls = ErrClass.retryError
    ∧ (LimiterRetryError freshStack message (some e)).name = "RetryError"
    ∧ (LimiterRetryError freshStack message (some e)).message = message
    ∧ (LimiterRetryError freshStack message (some e)).cause = some e
    ∧ ∀ s, e.stack = some s →
        (LimiterRetryError freshStack message (some e)).stack = some s := by
  refine ⟨rfl, rfl, rfl, rfl, ?_⟩
  intro s hs
  show e.stack = some s
  exact hs

/-- Witness for C8 at a concrete originating error carrying a stack. -/
theorem limiterRetryError_shape_witness :
    (JsErr.mk ErrClass.error "Error" "boom" (some "trace") none).stack = some "trace"
    ∧ (LimiterRetryError none "Retry limit exceeded"
        (some (JsErr.mk ErrClass.error "Error" "boom" (some "trace") none))).stack
      = some "trace" :=
  ⟨rfl,
   (limiterRetryError_shape none "Retry limit exceeded"
     (JsErr.mk ErrClass.error "Error" "boom" (some "trace") none)).2.2.2.2 "trace" rfl⟩

end Limiter

namespace Limiter

variable {ε : Type}

lemma admitLoop_append_falsy (cfg : Config) (env : ℕ → ℕ → Option ε)
    (l1 l2 : List (Item ε)) (st : St ε) (h1 : Item.falsy ∉ l1) :
    admitLoop cfg env (l1 ++ Item.falsy :: l2) st = admitLoop cfg env l1 st := by
  induction l1 generalizing st with
  | nil => rfl
  | cons i rest ih =>
    have hi : i ≠ Item.falsy := fun hh => h1 (by rw [hh]; exact List.mem_cons_self _ _)
    have hrest : Item.falsy ∉ rest := fun hh => h1 (List.mem_cons_of_mem _ hh)
    cases i with
    | falsy => exact absurd rfl hi
    | task cb =>
      simp only [List.cons_append, admitLoop]
      cases hmd : maybeDrain cfg st with
      | mk st1 e? =>
        cases e? with
        | some e => rfl
        | none =>
          rw [bindAdm_none, bindAdm_none]
          exact ih _ hrest
    | retry r =>
      simp only [List.cons_append, admitLoop]
      cases hmd : maybeDrain cfg st with
      | mk st1 e? =>
        cases e? with
        | some e => rfl
        | none =>
          rw [bindAdm_none, bindAdm_none]
          exact ih _ hrest

/-- C10 (amended): a falsy value in the variadic task sequence stops
admission at its position — the falsy item and every task submitted
before it are never executed, and the call behaves exactly as if only
the items submitted after the falsy value had been passed (in
particular it resolves without error exactly when that remaining batch
does). -/
theorem falsy_stops_admission (cfg : Config) (env : ℕ → ℕ → Option ε)
    (fuel : ℕ) (pre post : List (Item ε)) (st : St ε)
    (hpost : Item.falsy ∉ post) :
    processFuel cfg env fuel (pre ++ Item.falsy :: post) st
      = processFuel cfg env fuel post st := by
  cases fuel with
  | zero => rfl
  | succ fuel =>
    simp only [processFuel]
    have hrev : (pre ++ Item.falsy :: post).reverse
        = post.reverse ++ Item.falsy :: pre.reverse := by
      simp
    have hrevfree : Item.falsy ∉ post.reverse := by
      intro hh
      exact hpost (List.mem_reverse.mp hh)
    rw [hrev, admitLoop_append_falsy cfg env post.reverse pre.reverse _ hrevfree]

/-- Witness for C10 (amended): with a falsy value between two tasks, the
run equals the run on the tasks after the falsy value alone. -/
theorem falsy_stops_admission_witness :
    ((Item.falsy : Item ℕ) ∉ [Item.task 1])
    ∧ processFuel (Config.mk 1 0 false) (fun _ _ => (none : Option ℕ)) 1
        ([Item.task 0] ++ Item.falsy :: [Item.task 1]) (initSt ℕ)
      = processFuel (Config.mk 1 0 false) (fun _ _ => (none : Option ℕ)) 1
        [Item.task 1] (initSt ℕ) :=
  ⟨by decide,
   falsy_stops_admission (Config.mk 1 0 false) (fun _ _ => (none : Option ℕ)) 1
     [Item.task 0] [Item.task 1] (initSt ℕ) (by decide)⟩

/-- C10 counterexample: the claim as stated says `process` still
resolves without error whenever a falsy item appears; but if a task
submitted after the falsy position fails (no `onError`, `maxRetry = 0`),
`process` rejects with that task's error. -/
theorem falsy_claim_counterexample :
    (processFuel (Config.mk 1 0 false)
        (fun cb _ => if cb = 1 then some 0 else (none : Option ℕ)) 1
        [Item.task 0, Item.falsy, Item.task 1] (initSt ℕ)).2
      = PResult.thrown (LErr.raw 0) := by
  decide

end Limiter

namespace Limiter

variable {ε : Type}

lemma admitLoop_success_char (cfg : Config) (env : ℕ → ℕ → Option ε)
    (hEnv : ∀ cb a, env cb a = none) (hL : 1 ≤ cfg.limit) :
    ∀ (cbs : List ℕ) (st : St ε) (c : ℕ), SuccessShape st c → c ≤ cfg.limit →
      (admitLoop cfg env (cbs.map Item.task) st).2 = none
      ∧ SuccessShape (admitLoop cfg env (cbs.map Item.task) st).1
          (loopSim cfg.limit cbs.length c).2
      ∧ (loopSim cfg.limit cbs.length c).2 ≤ cfg.limit
      ∧ (admitLoop cfg env (cbs.map Item.task) st).1.batches
          = st.batches ++ (loopSim cfg.limit cbs.length c).1
      ∧ (admitLoop cfg env (cbs.map Item.task) st).1.log = st.log ++ cbs
      ∧ (admitLoop cfg env (cbs.map Item.task) st).1.sink = st.sink
      ∧ (admitLoop cfg env (cbs.map Item.task) st).1.processing = st.processing := by
  intro cbs
  induction cbs with
  | nil =>
    intro st c hs hc
    exact ⟨rfl, hs, hc, by simp [admitLoop, loopSim], by simp [admitLoop], rfl, rfl⟩
  | cons cb rest ih =>
    intro st c hs hc
    obtain ⟨hs1, hs2, hs3, hs4⟩ := hs
    simp only [List.map_cons, admitLoop, List.length_cons]
    by_cases hlim : cfg.limit ≤ st.promisesCount
    · -- drain first: the counter is exactly at the limit
      have hcL : c = cfg.limit := by omega
      obtain ⟨he1, he2, he3, he4⟩ := executeB_of_success cfg st hs3
      have hq1 := executeB_promises cfg st
      have hq0 := executeB_count_zero cfg st (by omega)
      have hbat := executeB_batches cfg st
      have hlog := executeB_log cfg st
      cases hex : executeB cfg st with
      | mk stE eE =>
        rw [hex] at he1 he2 he3 he4 hq1 hq0 hbat hlog
        dsimp only at he1 he2 he3 he4 hq1 hq0 hbat hlog
        have heE : eE = none := he1
        subst heE
        have hmd : maybeDrain cfg st = (stE, none) := by
          unfold maybeDrain
          rw [if_pos hlim, hex]
        rw [hmd, bindAdm_none]
        have hadm : SuccessShape (admitOne env stE cb cfg.maxRetry) 1 := by
          refine ⟨?_, ?_, ?_, ?_⟩
          · simp [admitOne, hq0]
          · simp [admitOne, hq1]
          · intro p hp
            simp only [admitOne, hq1, List.nil_append, List.mem_singleton] at hp
            rw [hp]
            exact hEnv _ _
          · simp [admitOne, he4, hs4]
        obtain ⟨g1, g2, g3, g4, g5, g6, g7⟩ :=
          ih (admitOne env stE cb cfg.maxRetry) 1 hadm hL
        have hsim : loopSim cfg.limit (rest.length + 1) c
            = (cfg.limit :: (loopSim cfg.limit rest.length 1).1,
               (loopSim cfg.limit rest.length 1).2) := by
          rw [hcL]
          simp [loopSim]
        rw [hsim]
        refine ⟨g1, g2, g3, ?_, ?_, ?_, ?_⟩
        · rw [g4]
          simp only [admitOne]
          rw [hbat, hs2, hcL]
          simp
        · rw [g5]
          simp only [admitOne]
          rw [hlog]
          simp
        · rw [g6]
          simp only [admitOne]
          exact he2
        · rw [g7]
          simp only [admitOne]
          exact he3
    · -- no drain: admit directly
      have hmd : maybeDrain cfg st = (st, none) := by
        unfold maybeDrain
        rw [if_neg hlim]
      rw [hmd, bindAdm_none]
      have hadm : SuccessShape (admitOne env st cb cfg.maxRetry) (c + 1) := by
        refine ⟨?_, ?_, ?_, ?_⟩
        · simp [admitOne, hs1]
        · simp [admitOne, hs2]
        · intro p hp
          simp only [admitOne, List.mem_append, List.mem_singleton] at hp
          rcases hp with hp | hp
          · exact hs3 p hp
          · rw [hp]
            exact hEnv _ _
        · simp [admitOne, hs4]
      obtain ⟨g1, g2, g3, g4, g5, g6, g7⟩ :=
        ih (admitOne env st cb cfg.maxRetry) (c + 1) hadm (by omega)
      have hsim : loopSim cfg.limit (rest.length + 1) c
          = loopSim cfg.limit rest.length (c + 1) := by
        have hnc : ¬ cfg.limit ≤ c := by omega
        simp [loopSim, hnc]
      rw [hsim]
      refine ⟨g1, g2, g3, ?_, ?_, ?_, ?_⟩
      · rw [g4]
        simp [admitOne]
      · rw [g5]
        simp [admitOne]
      · rw [g6]
        simp [admitOne]
      · rw [g7]
        simp [admitOne]

end Limiter

namespace Limiter

lemma loopSim_no_drain (L : ℕ) :
    ∀ n c, n + c ≤ L → loopSim L n c = ([], n + c) := by
  intro n
  induction n with
  | zero => intro c h; simp [loopSim]
  | succ n ih =>
    intro c h
    have hnc : ¬ L ≤ c := by omega
    simp only [loopSim, if_neg hnc]
    rw [ih (c + 1) (by omega)]
    congr 1
    omega

lemma loopSim_drain (L : ℕ) (hL : 1 ≤ L) :
    ∀ n c, 1 ≤ c → c ≤ L → L < n + c →
      loopSim L n c = (L :: (loopSim L (n + c - L - 1) 1).1,
                       (loopSim L (n + c - L - 1) 1).2) := by
  intro n
  induction n with
  | zero => intro c h1 h2 h3; omega
  | succ n ih =>
    intro c h1 h2 h3
    by_cases hc : L ≤ c
    · have hcL : c = L := by omega
      have hidx : n + 1 + c - L - 1 = n := by omega
      rw [hidx]
      simp [loopSim, hc]
    · simp only [loopSim, if_neg hc]
      rw [ih (c + 1) (by omega) (by omega) (by omega)]
      have hidx : n + (c + 1) - L - 1 = n + 1 + c - L - 1 := by omega
      rw [hidx]

lemma fullBatches_one (L : ℕ) (hL : 1 ≤ L) :
    ∀ n, fullBatches L n 1 = List.replicate (n / L) L ++ [n % L + 1] := by
  intro n
  induction n using Nat.strong_induction_on with
  | _ n ih =>
    by_cases h : n + 1 ≤ L
    · have hsim := loopSim_no_drain L n 1 h
      have hdiv : n / L = 0 := Nat.div_eq_of_lt (by omega)
      have hmod : n % L = n := Nat.mod_eq_of_lt (by omega)
      rw [fullBatches, hsim, hdiv, hmod]
      simp
    · have hsim := loopSim_drain L hL n 1 (le_refl 1) hL (by omega)
      have hidx : n + 1 - L - 1 = n - L := by omega
      rw [hidx] at hsim
      have hrec : fullBatches L n 1 = L :: fullBatches L (n - L) 1 := by
        rw [fullBatches, fullBatches, hsim]
        simp
      rw [hrec, ih (n - L) (by omega)]
      have hn : n = (n - L) + L := by omega
      have hdiv : n / L = (n - L) / L + 1 := by
        conv_lhs => rw [hn]
        rw [Nat.add_div_right _ (by omega)]
      have hmod : n % L = (n - L) % L := by
        conv_lhs => rw [hn]
        rw [Nat.add_mod_right]
      rw [hdiv, hmod, List.replicate_succ]
      simp

lemma fullBatches_zero (L : ℕ) (hL : 1 ≤ L) (K : ℕ) :
    fullBatches L K 0
      = List.replicate (K / L) L ++ (if K % L = 0 then [] else [K % L]) := by
  cases K with
  | zero => simp [fullBatches, loopSim]
  | succ n =>
    have hstep : fullBatches L (n + 1) 0 = fullBatches L n 1 := by
      have hnc : ¬ L ≤ 0 := by omega
      rw [fullBatches, fullBatches]
      simp only [loopSim, if_neg hnc]
    rw [hstep, fullBatches_one L hL n]
    have hb : n % L < L := Nat.mod_lt _ (by omega)
    have hdm := Nat.div_add_mod n L
    by_cases hbl : n % L + 1 = L
    · have hsplit : n + 1 = L * (n / L + 1) := by
        have hx : L * (n / L + 1) = L * (n / L) + L := by ring
        omega
      have hmod1 : (n + 1) % L = 0 := by
        rw [hsplit]
        exact Nat.mul_mod_right _ _
      have hdiv1 : (n + 1) / L = n / L + 1 := by
        rw [hsplit]
        exact Nat.mul_div_cancel_left _ (by omega)
      rw [hmod1, hdiv1, if_pos rfl, hbl]
      rw [List.replicate_add, List.replicate_one]
      simp
    · have hsplit : n + 1 = L * (n / L) + (n % L + 1) := by omega
      have hmod1 : (n + 1) % L = n % L + 1 := by
        rw [hsplit, Nat.mul_add_mod]
        exact Nat.mod_eq_of_lt (show n % L + 1 < L by omega)
      have hdiv1 : (n + 1) / L = n / L := by
        rw [hsplit, Nat.mul_add_div (show 0 < L by omega)]
        rw [Nat.div_eq_of_lt (show n % L + 1 < L by omega)]
        omega
      rw [hmod1, hdiv1, if_neg (show ¬ n % L + 1 = 0 by omega)]

end Limiter

namespace Limiter

variable {ε : Type}

lemma processFuel_success (cfg : Config) (env : ℕ → ℕ → Option ε)
    (hEnv : ∀ cb a, env cb a = none) (hL : 1 ≤ cfg.limit) (ids : List ℕ) :
    (processFuel cfg env 1 (ids.map Item.task) (initSt ε)).2 = PResult.ok
    ∧ (processFuel cfg env 1 (ids.map Item.task) (initSt ε)).1.batches
        = fullBatches cfg.limit ids.length 0
    ∧ (processFuel cfg env 1 (ids.map Item.task) (initSt ε)).1.log = ids.reverse
    ∧ (processFuel cfg env 1 (ids.map Item.task) (initSt ε)).1.sink = [] := by
  simp only [processFuel]
  have hrev : ((ids.map Item.task : List (Item ε))).reverse
      = (ids.reverse.map Item.task : List (Item ε)) := by
    rw [List.map_reverse]
  rw [hrev]
  have hshape : SuccessShape ({ initSt ε with processing := true } : St ε) 0 :=
    ⟨rfl, rfl, fun p hp => absurd hp (List.not_mem_nil p), rfl⟩
  obtain ⟨g1, gq, gle, gbat, glog, gsink, gproc⟩ :=
    admitLoop_success_char cfg env hEnv hL ids.reverse
      ({ initSt ε with processing := true }) 0 hshape (by omega)
  obtain ⟨q1, q2, q3, q4⟩ := gq
  cases hal : admitLoop cfg env (List.map Item.task ids.reverse)
      ({ initSt ε with processing := true } : St ε) with
  | mk st1 e? =>
    rw [hal] at g1 q1 q2 q3 q4 gbat glog gsink gproc
    dsimp only at g1 q1 q2 q3 q4 gbat glog gsink gproc
    subst g1
    rw [bindErr_none]
    by_cases h0 : (loopSim cfg.limit ids.reverse.length 0).2 = 0
    · have hpe : st1.promises = [] := by
        rw [← List.length_eq_zero]
        omega
      have hdp : drainPhase cfg st1 = (st1, none) := by
        unfold drainPhase
        rw [hpe]
        simp
      rw [hdp, bindErr_none, if_pos (by rw [q4]; rfl)]
      refine ⟨rfl, ?_, ?_, ?_⟩
      · show st1.batches = fullBatches cfg.limit ids.length 0
        rw [gbat, fullBatches]
        rw [← List.length_reverse ids]
        rw [if_pos h0]
        simp [initSt]
      · show st1.log = ids.reverse
        rw [glog]
        simp [initSt]
      · show st1.sink = []
        rw [gsink]
        rfl
    · have hpe : 0 < st1.promises.length := by omega
      obtain ⟨he1, he2, he3, he4⟩ := executeB_of_success cfg st1 q3
      have hbat2 := executeB_batches cfg st1
      have hlog2 := executeB_log cfg st1
      have hdp : drainPhase cfg st1 = ((executeB cfg st1).1, none) := by
        unfold drainPhase
        rw [if_pos hpe]
        cases hex : executeB cfg st1 with
        | mk stE eE =>
          rw [hex] at he1
          dsimp only at he1
          rw [he1]
      cases hex : executeB cfg st1 with
      | mk stE eE =>
        rw [hex] at hdp he2 he3 he4 hbat2 hlog2
        dsimp only at he2 he3 he4 hbat2 hlog2
        rw [hdp, bindErr_none, if_pos (by rw [he4, q4]; rfl)]
        refine ⟨rfl, ?_, ?_, ?_⟩
        · show stE.batches = fullBatches cfg.limit ids.length 0
          rw [hbat2, gbat, q2, fullBatches]
          rw [← List.length_reverse ids]
          rw [if_neg h0]
          simp [initSt]
        · show stE.log = ids.reverse
          rw [hlog2, glog]
          simp [initSt]
        · show stE.sink = []
          rw [he2, gsink]
          rfl

/-- C6: a `process` call with K non-failing tasks, no `rps` and limit
L ≥ 1 proceeds in fill-then-drain batches: the drained batch sizes are
K / L consecutive batches of size L followed by a final batch of
K mod L when that is nonzero; the call resolves, and every submitted
task's callback is invoked exactly once (the invocation log is the
reversed submission list, so each id occurs exactly as often as it was
submitted). -/
theorem fill_then_drain_batches (cfg : Config) (env : ℕ → ℕ → Option ε)
    (ids : List ℕ) (hEnv : ∀ cb a, env cb a = none) (hL : 1 ≤ cfg.limit) :
    (processFuel cfg env 1 (ids.map Item.task) (initSt ε)).2 = PResult.ok
    ∧ (processFuel cfg env 1 (ids.map Item.task) (initSt ε)).1.batches
        = List.replicate (ids.length / cfg.limit) cfg.limit
          ++ (if ids.length % cfg.limit = 0 then [] else [ids.length % cfg.limit])
    ∧ (processFuel cfg env 1 (ids.map Item.task) (initSt ε)).1.log = ids.reverse
    ∧ ∀ x, (processFuel cfg env 1 (ids.map Item.task) (initSt ε)).1.log.count x
        = ids.count x := by
  obtain ⟨h1, h2, h3, h4⟩ := processFuel_success cfg env hEnv hL ids
  refine ⟨h1, ?_, h3, ?_⟩
  · rw [h2, fullBatches_zero cfg.limit hL ids.length]
  · intro x
    rw [h3, List.count_reverse]

/-- Witness for C6: 7 tasks at limit 3 drain in batches 3, 3, 1. -/
theorem fill_then_drain_batches_witness :
    (processFuel (Config.mk 3 0 false) (fun _ _ => (none : Option ℕ)) 1
        ([1, 2, 3, 4, 5, 6, 7].map Item.task) (initSt ℕ)).2 = PResult.ok
    ∧ (processFuel (Config.mk 3 0 false) (fun _ _ => (none : Option ℕ)) 1
        ([1, 2, 3, 4, 5, 6, 7].map Item.task) (initSt ℕ)).1.batches
      = List.replicate (([1, 2, 3, 4, 5, 6, 7] : List ℕ).length / 3) 3
        ++ (if ([1, 2, 3, 4, 5, 6, 7] : List ℕ).length % 3 = 0 then []
            else [([1, 2, 3, 4, 5, 6, 7] : List ℕ).length % 3]) :=
  ⟨(fill_then_drain_batches (Config.mk 3 0 false) (fun _ _ => (none : Option ℕ))
      [1, 2, 3, 4, 5, 6, 7] (fun _ _ => rfl) (by decide)).1,
   (fill_then_drain_batches (Config.mk 3 0 false) (fun _ _ => (none : Option ℕ))
      [1, 2, 3, 4, 5, 6, 7] (fun _ _ => rfl) (by decide)).2.1⟩

end Limiter

namespace Limiter

variable {ε : Type}

lemma queued_of_fail (cfg : Config) (p : Prom ε) (e : ε) (hM : 0 < cfg.maxRetry)
    (h : p.outcome = some e) :
    queued cfg p = some (RItem.mk p.cb p.retriesIfFail e) := by
  unfold queued
  rw [if_pos hM, h]
  rfl

lemma filterMap_queued_allfail (cfg : Config) (errOf : ℕ → ε) (hM : 0 < cfg.maxRetry) :
    ∀ (l : List (Prom ε)), (∀ p ∈ l, p.outcome = some (errOf p.cb)) →
      l.filterMap (queued cfg)
        = l.map (fun p => RItem.mk p.cb p.retriesIfFail (errOf p.cb)) := by
  intro l
  induction l with
  | nil => intro _; rfl
  | cons p rest ih =>
    intro h
    rw [List.filterMap_cons,
        queued_of_fail cfg p (errOf p.cb) hM (h p (List.mem_cons_self p rest))]
    rw [List.map_cons, ih (fun q hq => h q (List.mem_cons_of_mem p hq))]

lemma executeB_allfail (cfg : Config) (errOf : ℕ → ε) (st : St ε)
    (hM : 0 < cfg.maxRetry)
    (hout : ∀ p ∈ st.promises, p.outcome = some (errOf p.cb)) :
    (executeB cfg st).2 = none
    ∧ (executeB cfg st).1.retryQueue = st.retryQueue ++ promInfo errOf st
    ∧ (executeB cfg st).1.promises = []
    ∧ (executeB cfg st).1.sink = st.sink
    ∧ (executeB cfg st).1.processing = st.processing
    ∧ (executeB cfg st).1.log = st.log := by
  obtain ⟨e1, e2, e3⟩ := executeB_none_of_maxRetry_pos cfg st hM
  refine ⟨e1, ?_, executeB_promises cfg st, e2, e3, executeB_log cfg st⟩
  rw [executeB_retryQueue, filterMap_queued_allfail cfg errOf hM st.promises hout]
  rfl

lemma collectLoop_pos (cfg : Config) :
    ∀ (q : List (RItem ε)) (st : St ε) (acc : List (RItem ε)),
      (∀ it ∈ q, 0 < it.retries) →
      collectLoop cfg q st acc
        = (st, (acc ++ q.map (fun it => RItem.mk it.callback (it.retries - 1) it.error),
                none)) := by
  intro q
  induction q with
  | nil => intro st acc _; simp [collectLoop]
  | cons it rest ih =>
    intro st acc h
    simp only [collectLoop, if_pos (h it (List.mem_cons_self it rest))]
    rw [ih st _ (fun x hx => h x (List.mem_cons_of_mem it hx))]
    simp

lemma collectLoop_zero_sink (cfg : Config) (ho : cfg.onError = true) :
    ∀ (q : List (RItem ε)) (st : St ε) (acc : List (RItem ε)),
      (∀ it ∈ q, it.retries = 0) →
      collectLoop cfg q st acc
        = ({ st with sink := st.sink ++ q.map (fun it => LErr.retryExceeded it.error) },
           (acc, none)) := by
  intro q
  induction q with
  | nil =>
    intro st acc _
    simp [collectLoop]
  | cons it rest ih =>
    intro st acc h
    have hz : it.retries = 0 := h it (List.mem_cons_self it rest)
    have hnr : ¬ 0 < it.retries := by omega
    simp only [collectLoop, if_neg hnr, if_pos ho]
    rw [ih _ _ (fun x hx => h x (List.mem_cons_of_mem it hx))]
    simp

lemma collectLoop_zero_throw (cfg : Config) (ho : cfg.onError = false)
    (it : RItem ε) (rest : List (RItem ε)) (st : St ε) (acc : List (RItem ε))
    (hz : it.retries = 0) :
    collectLoop cfg (it :: rest) st acc
      = ({ st with promises := [], retryQueue := [], processing := false },
         (acc, some (LErr.retryExceeded it.error))) := by
  have hnr : ¬ 0 < it.retries := by omega
  simp only [collectLoop, if_neg hnr, ho]
  simp

end Limiter

namespace Limiter

variable {ε : Type}

lemma promInfo_admitOne (errOf : ℕ → ε) (env : ℕ → ℕ → Option ε)
    (st : St ε) (cb rif : ℕ) :
    promInfo errOf (admitOne env st cb rif)
      = promInfo errOf st ++ [RItem.mk cb rif (errOf cb)] := by
  simp [promInfo, admitOne]

lemma maybeDrain_allfail (cfg : Config) (errOf : ℕ → ε) (st : St ε)
    (hM : 0 < cfg.maxRetry) (hL : 1 ≤ cfg.limit)
    (h1 : st.promisesCount = st.promises.length)
    (h2 : st.promisesCount ≤ cfg.limit)
    (h3 : ∀ p ∈ st.promises, p.outcome = some (errOf p.cb)) :
    (maybeDrain cfg st).2 = none
    ∧ (maybeDrain cfg st).1.retryQueue ++ promInfo errOf (maybeDrain cfg st).1
        = st.retryQueue ++ promInfo errOf st
    ∧ (∀ p ∈ (maybeDrain cfg st).1.promises, p.outcome = some (errOf p.cb))
    ∧ (maybeDrain cfg st).1.promisesCount = (maybeDrain cfg st).1.promises.length
    ∧ (maybeDrain cfg st).1.promisesCount < cfg.limit
    ∧ (maybeDrain cfg st).1.sink = st.sink
    ∧ (maybeDrain cfg st).1.processing = st.processing
    ∧ (maybeDrain cfg st).1.log = st.log := by
  unfold maybeDrain
  by_cases hlim : cfg.limit ≤ st.promisesCount
  · rw [if_pos hlim]
    obtain ⟨e1, e2, e3, e4, e5, e6⟩ := executeB_allfail cfg errOf st hM h3
    have hq0 : (executeB cfg st).1.promisesCount = 0 := executeB_count_zero cfg st h1
    have hpi : promInfo errOf (executeB cfg st).1 = [] := by
      simp [promInfo, executeB_promises]
    refine ⟨e1, ?_, ?_, ?_, ?_, e4, e5, e6⟩
    · rw [hpi, e2]
      simp
    · rw [e3]
      intro p hp
      cases hp
    · rw [hq0, e3]
      rfl
    · omega
  · rw [if_neg hlim]
    refine ⟨rfl, rfl, h3, h1, ?_, rfl, rfl, rfl⟩
    show st.promisesCount < cfg.limit
    omega

lemma admitOne_allfail_state (cfg : Config) (env : ℕ → ℕ → Option ε) (errOf : ℕ → ε)
    (hEnv : ∀ cb a, env cb a = some (errOf cb)) (st1 : St ε) (cb rif : ℕ)
    (h1 : st1.promisesCount = st1.promises.length)
    (hlt : st1.promisesCount < cfg.limit)
    (h3 : ∀ p ∈ st1.promises, p.outcome = some (errOf p.cb)) :
    (admitOne env st1 cb rif).promisesCount = (admitOne env st1 cb rif).promises.length
    ∧ (admitOne env st1 cb rif).promisesCount ≤ cfg.limit
    ∧ (∀ p ∈ (admitOne env st1 cb rif).promises, p.outcome = some (errOf p.cb)) := by
  refine ⟨by simp [admitOne, h1], by simp only [admitOne]; omega, ?_⟩
  intro p hp
  simp only [admitOne, List.mem_append, List.mem_singleton] at hp
  rcases hp with hp | hp
  · exact h3 p hp
  · rw [hp, hEnv]

lemma admit_allfail_char (cfg : Config) (env : ℕ → ℕ → Option ε) (errOf : ℕ → ε)
    (hM : 0 < cfg.maxRetry) (hL : 1 ≤ cfg.limit)
    (hEnv : ∀ cb a, env cb a = some (errOf cb)) :
    ∀ (l : List (Item ε)) (st : St ε),
      Item.falsy ∉ l →
      st.promisesCount = st.promises.length →
      st.promisesCount ≤ cfg.limit →
      (∀ p ∈ st.promises, p.outcome = some (errOf p.cb)) →
      (admitLoop cfg env l st).2 = none
      ∧ (admitLoop cfg env l st).1.log = st.log ++ l.map Item.cbOf
      ∧ (admitLoop cfg env l st).1.retryQueue
          ++ promInfo errOf (admitLoop cfg env l st).1
        = st.retryQueue ++ promInfo errOf st ++ l.map (itemInfo cfg errOf)
      ∧ (∀ p ∈ (admitLoop cfg env l st).1.promises, p.outcome = some (errOf p.cb))
      ∧ (admitLoop cfg env l st).1.promisesCount
          = (admitLoop cfg env l st).1.promises.length
      ∧ (admitLoop cfg env l st).1.promisesCount ≤ cfg.limit
      ∧ (admitLoop cfg env l st).1.sink = st.sink
      ∧ (admitLoop cfg env l st).1.processing = st.processing := by
  intro l
  induction l with
  | nil =>
    intro st hf h1 h2 h3
    exact ⟨rfl, by simp [admitLoop], by simp [admitLoop], h3, h1, h2, rfl, rfl⟩
  | cons i rest ih =>
    intro st hf h1 h2 h3
    have hif : i ≠ Item.falsy := fun hh => hf (by rw [hh]; exact List.mem_cons_self _ _)
    have hrf : Item.falsy ∉ rest := fun hh => hf (List.mem_cons_of_mem _ hh)
    obtain ⟨m1, m2, m3, m4, m5, m6, m7, m8⟩ :=
      maybeDrain_allfail cfg errOf st hM hL h1 h2 h3
    cases i with
    | falsy => exact absurd rfl hif
    | task cb =>
      simp only [admitLoop]
      cases hmd : maybeDrain cfg st with
      | mk st1 e? =>
        rw [hmd] at m1 m2 m3 m4 m5 m6 m7 m8
        dsimp only at m1 m2 m3 m4 m5 m6 m7 m8
        subst m1
        rw [bindAdm_none]
        obtain ⟨a1, a2, a3⟩ :=
          admitOne_allfail_state cfg env errOf hEnv st1 cb cfg.maxRetry m4 m5 m3
        obtain ⟨g1, g2, g3, g4, g5, g6, g7, g8⟩ :=
          ih (admitOne env st1 cb cfg.maxRetry) hrf a1 a2 a3
        refine ⟨g1, ?_, ?_, g4, g5, g6, ?_, ?_⟩
        · rw [g2]
          simp only [admitOne]
          rw [m8]
          simp [Item.cbOf]
        · rw [g3, promInfo_admitOne]
          simp only [admitOne]
          rw [← List.append_assoc, m2]
          simp [itemInfo, Item.cbOf, Item.rifOf]
        · rw [g7]
          simp only [admitOne]
          exact m6
        · rw [g8]
          simp only [admitOne]
          exact m7
    | retry r =>
      simp only [admitLoop]
      cases hmd : maybeDrain cfg st with
      | mk st1 e? =>
        rw [hmd] at m1 m2 m3 m4 m5 m6 m7 m8
        dsimp only at m1 m2 m3 m4 m5 m6 m7 m8
        subst m1
        rw [bindAdm_none]
        obtain ⟨a1, a2, a3⟩ :=
          admitOne_allfail_state cfg env errOf hEnv st1 r.callback r.retries m4 m5 m3
        obtain ⟨g1, g2, g3, g4, g5, g6, g7, g8⟩ :=
          ih (admitOne env st1 r.callback r.retries) hrf a1 a2 a3
        refine ⟨g1, ?_, ?_, g4, g5, g6, ?_, ?_⟩
        · rw [g2]
          simp only [admitOne]
          rw [m8]
          simp [Item.cbOf]
        · rw [g3, promInfo_admitOne]
          simp only [admitOne]
          rw [← List.append_assoc, m2]
          simp [itemInfo, Item.cbOf, Item.rifOf]
        · rw [g7]
          simp only [admitOne]
          exact m6
        · rw [g8]
          simp only [admitOne]
          exact m7

end Limiter

namespace Limiter

variable {ε : Type}

lemma admitDrain_allfail (cfg : Config) (env : ℕ → ℕ → Option ε) (errOf : ℕ → ε)
    (hM : 0 < cfg.maxRetry) (hL : 1 ≤ cfg.limit)
    (hEnv : ∀ cb a, env cb a = some (errOf cb))
    (l : List (Item ε)) (st : St ε) (hf : Item.falsy ∉ l)
    (hq1 : st.promisesCount = 0) (hq2 : st.promises = [])
    (hq3 : st.retryQueue = []) :
    (admitLoop cfg env l st).2 = none
    ∧ (drainPhase cfg (admitLoop cfg env l st).1).2 = none
    ∧ (drainPhase cfg (admitLoop cfg env l st).1).1.retryQueue
        = l.map (itemInfo cfg errOf)
    ∧ (drainPhase cfg (admitLoop cfg env l st).1).1.promises = []
    ∧ (drainPhase cfg (admitLoop cfg env l st).1).1.promisesCount = 0
    ∧ (drainPhase cfg (admitLoop cfg env l st).1).1.log = st.log ++ l.map Item.cbOf
    ∧ (drainPhase cfg (admitLoop cfg env l st).1).1.sink = st.sink
    ∧ (drainPhase cfg (admitLoop cfg env l st).1).1.processing = st.processing := by
  have h1 : st.promisesCount = st.promises.length := by rw [hq1, hq2]; rfl
  have h3 : ∀ p ∈ st.promises, p.outcome = some (errOf p.cb) := by
    rw [hq2]
    intro p hp
    cases hp
  obtain ⟨g1, g2, g3, g4, g5, g6, g7, g8⟩ :=
    admit_allfail_char cfg env errOf hM hL hEnv l st hf h1 (by omega) h3
  have hpi0 : promInfo errOf st = [] := by simp [promInfo, hq2]
  rw [hq3, hpi0] at g3
  simp only [List.nil_append, List.append_nil] at g3
  by_cases hpe : (admitLoop cfg env l st).1.promises = []
  · have hdp : drainPhase cfg (admitLoop cfg env l st).1
        = ((admitLoop cfg env l st).1, none) := by
      unfold drainPhase
      rw [hpe]
      simp
    have hpi1 : promInfo errOf (admitLoop cfg env l st).1 = [] := by
      simp [promInfo, hpe]
    rw [hpi1, List.append_nil] at g3
    rw [hdp]
    exact ⟨g1, rfl, g3, hpe, by rw [g5, hpe]; rfl, g2, g7, g8⟩
  · have hlen : 0 < (admitLoop cfg env l st).1.promises.length := by
      cases hp : (admitLoop cfg env l st).1.promises
      · exact absurd hp hpe
      · simp
    obtain ⟨e1, e2, e3, e4, e5, e6⟩ :=
      executeB_allfail cfg errOf (admitLoop cfg env l st).1 hM g4
    have hdp : drainPhase cfg (admitLoop cfg env l st).1
        = ((executeB cfg (admitLoop cfg env l st).1).1, none) := by
      unfold drainPhase
      rw [if_pos hlen]
      cases hex : executeB cfg (admitLoop cfg env l st).1 with
      | mk stE eE =>
        rw [hex] at e1
        dsimp only at e1
        rw [e1]
    rw [hdp]
    refine ⟨g1, rfl, ?_, e3, ?_, ?_, ?_, ?_⟩
    · rw [e2, g3]
    · rw [executeB_count_zero cfg (admitLoop cfg env l st).1 g5]
    · rw [e6, g2]
    · rw [e4, g7]
    · rw [e5, g8]

lemma processFuel_succ (cfg : Config) (env : ℕ → ℕ → Option ε) (fuel : ℕ)
    (items : List (Item ε)) (st : St ε) :
    processFuel cfg env (fuel + 1) items st
      = bindErr (admitLoop cfg env items.reverse { st with processing := true }) (fun st1 =>
          bindErr (drainPhase cfg st1) (fun st2 =>
            if st2.retryQueue.length = 0 then
              ({ st2 with processing := false }, PResult.ok)
            else
              bindCollect (collectLoop cfg st2.retryQueue.reverse
                  { st2 with retryQueue := [] } [])
                (fun st3 retryItems =>
                  if retryItems.length = 0 then
                    ({ st3 with processing := false }, PResult.ok)
                  else
                    afterOk (processFuel cfg env fuel (retryItems.map Item.retry) st3)))) :=
  rfl

lemma flatten_replicate_succ {α : Type} (n : ℕ) (x : List α) :
    (List.replicate (n + 1) x).flatten = x ++ (List.replicate n x).flatten := by
  rw [List.replicate_succ, List.flatten_cons]

lemma cascade_sink (cfg : Config) (env : ℕ → ℕ → Option ε) (errOf : ℕ → ε)
    (ho : cfg.onError = true) (hM : 0 < cfg.maxRetry) (hL : 1 ≤ cfg.limit)
    (hEnv : ∀ cb a, env cb a = some (errOf cb)) :
    ∀ (r : ℕ) (rs : List (RItem ε)) (st : St ε),
      rs ≠ [] → (∀ it ∈ rs, it.retries = r) →
      st.promisesCount = 0 → st.promises = [] → st.retryQueue = [] →
      (processFuel cfg env (r + 1) (rs.map Item.retry) st).2 = PResult.ok
      ∧ (processFuel cfg env (r + 1) (rs.map Item.retry) st).1.log
          = st.log ++ (List.replicate (r + 1) ((rs.map RItem.callback).reverse)).flatten
      ∧ (processFuel cfg env (r + 1) (rs.map Item.retry) st).1.sink
          = st.sink ++ rs.map (fun it => LErr.retryExceeded (errOf it.callback))
      ∧ (processFuel cfg env (r + 1) (rs.map Item.retry) st).1.processing = false := by
  intro r
  induction r with
  | zero =>
    intro rs st hne hr hq1 hq2 hq3
    simp only [processFuel]
    have hf : Item.falsy ∉ (rs.map Item.retry).reverse := by
      intro hh
      rw [List.mem_reverse] at hh
      obtain ⟨it, _, hit⟩ := List.mem_map.mp hh
      cases hit
    obtain ⟨g1, g2, g3, g4, g5, g6, g7, g8⟩ :=
      admitDrain_allfail cfg env errOf hM hL hEnv (rs.map Item.retry).reverse
        ({ st with processing := true }) hf hq1 hq2 hq3
    cases hal : admitLoop cfg env (rs.map Item.retry).reverse
        ({ st with processing := true } : St ε) with
    | mk st1 e? =>
      rw [hal] at g1 g2 g3 g4 g5 g6 g7 g8
      dsimp only at g1
      subst g1
      rw [bindErr_none]
      cases hdp : drainPhase cfg st1 with
      | mk st2 e2? =>
        rw [hdp] at g2 g3 g4 g5 g6 g7 g8
        dsimp only at g2 g3 g4 g5 g6 g7 g8
        subst g2
        rw [bindErr_none]
        have hql : st2.retryQueue
            = ((rs.map (itemInfo cfg errOf ∘ Item.retry)).reverse) := by
          rw [g3, List.map_reverse, List.map_map]
        have hqn : ¬ st2.retryQueue.length = 0 := by
          rw [hql]
          cases rs with
          | nil => exact absurd rfl hne
          | cons a b => simp
        rw [if_neg hqn]
        have hcq : st2.retryQueue.reverse = rs.map (itemInfo cfg errOf ∘ Item.retry) := by
          rw [hql, List.reverse_reverse]
        have hzero : ∀ it ∈ rs.map (itemInfo cfg errOf ∘ Item.retry), it.retries = 0 := by
          intro it hit
          obtain ⟨x, hx, hxi⟩ := List.mem_map.mp hit
          rw [← hxi]
          show (itemInfo cfg errOf (Item.retry x)).retries = 0
          show x.retries = 0
          exact hr x hx
        rw [hcq, collectLoop_zero_sink cfg ho _ _ [] hzero, bindCollect_none]
        rw [if_pos (show ([] : List (RItem ε)).length = 0 from rfl)]
        refine ⟨rfl, ?_, ?_, rfl⟩
        · show st2.log = st.log ++ (List.replicate 1 ((rs.map RItem.callback).reverse)).flatten
          rw [g6]
          simp only [List.replicate_one, List.flatten_cons, List.flatten_nil, List.append_nil]
          rw [List.map_reverse, List.map_map]
          rfl
        · show st2.sink ++ _ = st.sink ++ _
          rw [g7]
          show ({ st with processing := true } : St ε).sink ++ _ = st.sink ++ _
          congr 1
          rw [List.map_map]
          rfl
  | succ r ih =>
    intro rs st hne hr hq1 hq2 hq3
    rw [processFuel_succ]
    have hf : Item.falsy ∉ (rs.map Item.retry).reverse := by
      intro hh
      rw [List.mem_reverse] at hh
      obtain ⟨it, _, hit⟩ := List.mem_map.mp hh
      cases hit
    obtain ⟨g1, g2, g3, g4, g5, g6, g7, g8⟩ :=
      admitDrain_allfail cfg env errOf hM hL hEnv (rs.map Item.retry).reverse
        ({ st with processing := true }) hf hq1 hq2 hq3
    cases hal : admitLoop cfg env (rs.map Item.retry).reverse
        ({ st with processing := true } : St ε) with
    | mk st1 e? =>
      rw [hal] at g1 g2 g3 g4 g5 g6 g7 g8
      dsimp only at g1
      subst g1
      rw [bindErr_none]
      cases hdp : drainPhase cfg st1 with
      | mk st2 e2? =>
        rw [hdp] at g2 g3 g4 g5 g6 g7 g8
        dsimp only at g2 g3 g4 g5 g6 g7 g8
        subst g2
        rw [bindErr_none]
        have hql : st2.retryQueue
            = ((rs.map (itemInfo cfg errOf ∘ Item.retry)).reverse) := by
          rw [g3, List.map_reverse, List.map_map]
        have hqn : ¬ st2.retryQueue.length = 0 := by
          rw [hql]
          cases rs with
          | nil => exact absurd rfl hne
          | cons a b => simp
        rw [if_neg hqn]
        have hcq : st2.retryQueue.reverse = rs.map (itemInfo cfg errOf ∘ Item.retry) := by
          rw [hql, List.reverse_reverse]
        have hpos : ∀ it ∈ rs.map (itemInfo cfg errOf ∘ Item.retry), 0 < it.retries := by
          intro it hit
          obtain ⟨x, hx, hxi⟩ := List.mem_map.mp hit
          rw [← hxi]
          show 0 < (itemInfo cfg errOf (Item.retry x)).retries
          show 0 < x.retries
          rw [hr x hx]
          omega
        rw [hcq, collectLoop_pos cfg _ _ [] hpos, bindCollect_none]
        have hri : ¬ ((rs.map (itemInfo cfg errOf ∘ Item.retry)).map
            (fun it => RItem.mk it.callback (it.retries - 1) it.error)).length = 0 := by
          cases rs with
          | nil => exact absurd rfl hne
          | cons a b => simp
        rw [List.nil_append, if_neg hri]
        have hrs' : ((rs.map (itemInfo cfg errOf ∘ Item.retry)).map
            (fun it => RItem.mk it.callback (it.retries - 1) it.error))
            = rs.map (fun it => RItem.mk it.callback (it.retries - 1) (errOf it.callback)) := by
          rw [List.map_map]
          rfl
        rw [hrs']
        have hrs'ne : rs.map (fun it =>
            RItem.mk it.callback (it.retries - 1) (errOf it.callback)) ≠ [] := by
          cases rs with
          | nil => exact absurd rfl hne
          | cons a b => simp
        have hrs'r : ∀ it ∈ rs.map (fun it =>
            RItem.mk it.callback (it.retries - 1) (errOf it.callback)), it.retries = r := by
          intro it hit
          obtain ⟨x, hx, hxi⟩ := List.mem_map.mp hit
          rw [← hxi]
          show x.retries - 1 = r
          rw [hr x hx]
          omega
        obtain ⟨k1, k2, k3, k4⟩ :=
          ih (rs.map (fun it => RItem.mk it.callback (it.retries - 1) (errOf it.callback)))
            { st2 with retryQueue := [] } hrs'ne hrs'r g5 g4 rfl
        cases hrec : processFuel cfg env (r + 1)
            ((rs.map (fun it => RItem.mk it.callback (it.retries - 1)
              (errOf it.callback))).map Item.retry) { st2 with retryQueue := [] } with
        | mk st4 r4 =>
          rw [hrec] at k1 k2 k3 k4
          dsimp only at k1 k2 k3 k4
          subst k1
          rw [afterOk_ok]
          refine ⟨rfl, ?_, ?_, rfl⟩
          · show st4.log = st.log ++ _
            rw [k2]
            show ({ st2 with retryQueue := [] } : St ε).log ++ _ = _
            show st2.log ++ _ = _
            rw [g6]
            show ({ st with processing := true } : St ε).log ++ _ ++ _ = _
            show st.log ++ _ ++ _ = _
            rw [List.append_assoc]
            congr 1
            have hcb : (rs.map (fun it => RItem.mk it.callback (it.retries - 1)
                (errOf it.callback))).map RItem.callback = rs.map RItem.callback := by
              rw [List.map_map]
              rfl
            rw [hcb]
            have hcb2 : (rs.map Item.retry).reverse.map Item.cbOf
                = (rs.map RItem.callback).reverse := by
              rw [List.map_reverse, List.map_map]
              rfl
            rw [hcb2]
            conv_rhs => rw [flatten_replicate_succ]
          · show st4.sink = st.sink ++ _
            rw [k3]
            show ({ st2 with retryQueue := [] } : St ε).sink ++ _ = _
            show st2.sink ++ _ = _
            rw [g7]
            show ({ st with processing := true } : St ε).sink ++ _ = _
            show st.sink ++ _ = _
            congr 1
            rw [List.map_map]
            rfl

end Limiter

namespace Limiter

variable {ε : Type}

lemma cascade_throw (cfg : Config) (env : ℕ → ℕ → Option ε) (errOf : ℕ → ε)
    (ho : cfg.onError = false) (hM : 0 < cfg.maxRetry) (hL : 1 ≤ cfg.limit)
    (hEnv : ∀ cb a, env cb a = some (errOf cb)) :
    ∀ (r : ℕ) (cb : ℕ) (e0 : ε) (st : St ε),
      st.promisesCount = 0 → st.promises = [] → st.retryQueue = [] →
      (processFuel cfg env (r + 1) [Item.retry (RItem.mk cb r e0)] st).2
          = PResult.thrown (LErr.retryExceeded (errOf cb))
      ∧ (processFuel cfg env (r + 1) [Item.retry (RItem.mk cb r e0)] st).1.log
          = st.log ++ List.replicate (r + 1) cb := by
  intro r
  induction r with
  | zero =>
    intro cb e0 st hq1 hq2 hq3
    rw [processFuel_succ]
    have hf : Item.falsy ∉ ([Item.retry (RItem.mk cb 0 e0)] : List (Item ε)).reverse := by
      simp
    obtain ⟨g1, g2, g3, g4, g5, g6, g7, g8⟩ :=
      admitDrain_allfail cfg env errOf hM hL hEnv
        ([Item.retry (RItem.mk cb 0 e0)] : List (Item ε)).reverse
        ({ st with processing := true }) hf hq1 hq2 hq3
    cases hal : admitLoop cfg env ([Item.retry (RItem.mk cb 0 e0)] : List (Item ε)).reverse
        ({ st with processing := true } : St ε) with
    | mk st1 e? =>
      rw [hal] at g1 g2 g3 g4 g5 g6 g7 g8
      dsimp only at g1
      subst g1
      rw [bindErr_none]
      cases hdp : drainPhase cfg st1 with
      | mk st2 e2? =>
        rw [hdp] at g2 g3 g4 g5 g6 g7 g8
        dsimp only at g2 g3 g4 g5 g6 g7 g8
        subst g2
        rw [bindErr_none]
        have hql : st2.retryQueue = [RItem.mk cb 0 (errOf cb)] := by
          rw [g3]
          simp [itemInfo, Item.cbOf, Item.rifOf]
        have hqn : ¬ st2.retryQueue.length = 0 := by
          rw [hql]
          simp
        rw [if_neg hqn]
        have hcq : st2.retryQueue.reverse = [RItem.mk cb 0 (errOf cb)] := by
          rw [hql]
          rfl
        rw [hcq, collectLoop_zero_throw cfg ho (RItem.mk cb 0 (errOf cb)) [] _ [] rfl,
            bindCollect_some]
        refine ⟨rfl, ?_⟩
        show st2.log = st.log ++ List.replicate 1 cb
        rw [g6]
        show ({ st with processing := true } : St ε).log ++ _ = _
        show st.log ++ _ = _
        congr 1
  | succ r ih =>
    intro cb e0 st hq1 hq2 hq3
    rw [processFuel_succ]
    have hf : Item.falsy ∉ ([Item.retry (RItem.mk cb (r + 1) e0)] : List (Item ε)).reverse := by
      simp
    obtain ⟨g1, g2, g3, g4, g5, g6, g7, g8⟩ :=
      admitDrain_allfail cfg env errOf hM hL hEnv
        ([Item.retry (RItem.mk cb (r + 1) e0)] : List (Item ε)).reverse
        ({ st with processing := true }) hf hq1 hq2 hq3
    cases hal : admitLoop cfg env
        ([Item.retry (RItem.mk cb (r + 1) e0)] : List (Item ε)).reverse
        ({ st with processing := true } : St ε) with
    | mk st1 e? =>
      rw [hal] at g1 g2 g3 g4 g5 g6 g7 g8
      dsimp only at g1
      subst g1
      rw [bindErr_none]
      cases hdp : drainPhase cfg st1 with
      | mk st2 e2? =>
        rw [hdp] at g2 g3 g4 g5 g6 g7 g8
        dsimp only at g2 g3 g4 g5 g6 g7 g8
        subst g2
        rw [bindErr_none]
        have hql : st2.retryQueue = [RItem.mk cb (r + 1) (errOf cb)] := by
          rw [g3]
          simp [itemInfo, Item.cbOf, Item.rifOf]
        have hqn : ¬ st2.retryQueue.length = 0 := by
          rw [hql]
          simp
        rw [if_neg hqn]
        have hcq : st2.retryQueue.reverse = [RItem.mk cb (r + 1) (errOf cb)] := by
          rw [hql]
          rfl
        have hpos : ∀ it ∈ ([RItem.mk cb (r + 1) (errOf cb)] : List (RItem ε)),
            0 < it.retries := by
          intro it hit
          rw [List.mem_singleton] at hit
          rw [hit]
          show 0 < r + 1
          omega
        rw [hcq, collectLoop_pos cfg _ _ [] hpos, bindCollect_none]
        have hri : ¬ (([] : List (RItem ε))
            ++ [RItem.mk cb (r + 1) (errOf cb)].map
                (fun it => RItem.mk it.callback (it.retries - 1) it.error)).length = 0 := by
          simp
        rw [if_neg hri]
        have hitems : (([] : List (RItem ε))
            ++ [RItem.mk cb (r + 1) (errOf cb)].map
                (fun it => RItem.mk it.callback (it.retries - 1) it.error)).map Item.retry
            = [Item.retry (RItem.mk cb r (errOf cb))] := by
          simp
        rw [List.nil_append] at hitems ⊢
        rw [hitems]
        obtain ⟨k1, k2⟩ := ih cb (errOf cb) { st2 with retryQueue := [] } g5 g4 rfl
        cases hrec : processFuel cfg env (r + 1)
            [Item.retry (RItem.mk cb r (errOf cb))] { st2 with retryQueue := [] } with
        | mk st4 r4 =>
          rw [hrec] at k1 k2
          dsimp only at k1 k2
          subst k1
          rw [afterOk_thrown]
          refine ⟨rfl, ?_⟩
          show st4.log = st.log ++ List.replicate (r + 1 + 1) cb
          rw [k2]
          show ({ st2 with retryQueue := [] } : St ε).log ++ _ = _
          show st2.log ++ _ = _
          rw [g6]
          show ({ st with processing := true } : St ε).log ++ _ ++ _ = _
          show st.log ++ _ ++ _ = _
          rw [List.append_assoc]
          congr 1

end Limiter

namespace Limiter

variable {ε : Type}

/-- C2: with `maxRetry = M > 0` and no `onError`, a `process` call over a
single always-failing task rejects with the retry-exhaustion error
(`LimiterRetryError`) whose cause is the task's own error, and the task's
callback is invoked exactly M + 1 times in total before that rejection. -/
theorem retry_exhaustion_rejects (cfg : Config) (env : ℕ → ℕ → Option ε)
    (errOf : ℕ → ε) (cb : ℕ) (M : ℕ)
    (hM : cfg.maxRetry = M) (hMpos : 0 < M) (ho : cfg.onError = false)
    (hL : 1 ≤ cfg.limit) (hEnv : ∀ c a, env c a = some (errOf c)) :
    (processFuel cfg env (M + 1) [Item.task cb] (initSt ε)).2
        = PResult.thrown (LErr.retryExceeded (errOf cb))
    ∧ (processFuel cfg env (M + 1) [Item.task cb] (initSt ε)).1.log
        = List.replicate (M + 1) cb
    ∧ (processFuel cfg env (M + 1) [Item.task cb] (initSt ε)).1.log.count cb
        = M + 1 := by
  obtain ⟨M', rfl⟩ : ∃ M', M = M' + 1 := ⟨M - 1, by omega⟩
  have hMr : 0 < cfg.maxRetry := by omega
  rw [processFuel_succ]
  have hf : Item.falsy ∉ ([Item.task cb] : List (Item ε)).reverse := by simp
  obtain ⟨g1, g2, g3, g4, g5, g6, g7, g8⟩ :=
    admitDrain_allfail cfg env errOf hMr hL hEnv
      ([Item.task cb] : List (Item ε)).reverse
      ({ initSt ε with processing := true }) hf rfl rfl rfl
  cases hal : admitLoop cfg env ([Item.task cb] : List (Item ε)).reverse
      ({ initSt ε with processing := true } : St ε) with
  | mk st1 e? =>
    rw [hal] at g1 g2 g3 g4 g5 g6 g7 g8
    dsimp only at g1
    subst g1
    rw [bindErr_none]
    cases hdp : drainPhase cfg st1 with
    | mk st2 e2? =>
      rw [hdp] at g2 g3 g4 g5 g6 g7 g8
      dsimp only at g2 g3 g4 g5 g6 g7 g8
      subst g2
      rw [bindErr_none]
      have hql : st2.retryQueue = [RItem.mk cb (M' + 1) (errOf cb)] := by
        rw [g3]
        simp [itemInfo, Item.cbOf, Item.rifOf, hM]
      have hqn : ¬ st2.retryQueue.length = 0 := by
        rw [hql]
        simp
      rw [if_neg hqn]
      have hcq : st2.retryQueue.reverse = [RItem.mk cb (M' + 1) (errOf cb)] := by
        rw [hql]
        rfl
      have hpos : ∀ it ∈ ([RItem.mk cb (M' + 1) (errOf cb)] : List (RItem ε)),
          0 < it.retries := by
        intro it hit
        rw [List.mem_singleton] at hit
        rw [hit]
        show 0 < M' + 1
        omega
      rw [hcq, collectLoop_pos cfg _ _ [] hpos, bindCollect_none]
      have hri : ¬ (([] : List (RItem ε))
          ++ [RItem.mk cb (M' + 1) (errOf cb)].map
              (fun it => RItem.mk it.callback (it.retries - 1) it.error)).length = 0 := by
        simp
      rw [if_neg hri]
      have hitems : (([] : List (RItem ε))
          ++ [RItem.mk cb (M' + 1) (errOf cb)].map
              (fun it => RItem.mk it.callback (it.retries - 1) it.error)).map Item.retry
          = [Item.retry (RItem.mk cb M' (errOf cb))] := by
        simp
      rw [List.nil_append] at hitems ⊢
      rw [hitems]
      obtain ⟨k1, k2⟩ := cascade_throw cfg env errOf ho hMr hL hEnv M' cb (errOf cb)
        { st2 with retryQueue := [] } g5 g4 rfl
      cases hrec : processFuel cfg env (M' + 1)
          [Item.retry (RItem.mk cb M' (errOf cb))] { st2 with retryQueue := [] } with
      | mk st4 r4 =>
        rw [hrec] at k1 k2
        dsimp only at k1 k2
        subst k1
        rw [afterOk_thrown]
        have hlog : st4.log = List.replicate (M' + 1 + 1) cb := by
          rw [k2]
          show st2.log ++ _ = _
          rw [g6]
          show ({ initSt ε with processing := true } : St ε).log ++ _ ++ _ = _
          show ([] : List ℕ) ++ _ ++ _ = _
          rw [List.nil_append, List.replicate_succ]
          congr 1
        refine ⟨rfl, hlog, ?_⟩
        show st4.log.count cb = M' + 1 + 1
        rw [hlog, List.count_replicate]
        simp
  
end Limiter

namespace Limiter

variable {ε : Type}

/-- Witness for C2: maxRetry 3, always-failing task 5 with error 105 —
rejection with the wrapped cause and 4 attempts. -/
theorem retry_exhaustion_rejects_witness :
    (processFuel (Config.mk 1 3 false) (fun c _ => some (100 + c)) 4
        [Item.task 5] (initSt ℕ)).2 = PResult.thrown (LErr.retryExceeded 105)
    ∧ (processFuel (Config.mk 1 3 false) (fun c _ => some (100 + c)) 4
        [Item.task 5] (initSt ℕ)).1.log.count 5 = 4 :=
  ⟨(retry_exhaustion_rejects (Config.mk 1 3 false) (fun c _ => some (100 + c))
      (fun c => 100 + c) 5 3 rfl (by decide) rfl (by decide) (fun c a => rfl)).1,
   (retry_exhaustion_rejects (Config.mk 1 3 false) (fun c _ => some (100 + c))
      (fun c => 100 + c) 5 3 rfl (by decide) rfl (by decide) (fun c a => rfl)).2.2⟩

lemma pendErrs_admitOne (cfg : Config) (env : ℕ → ℕ → Option ε) (st : St ε)
    (cb rif : ℕ) (hM : cfg.maxRetry = 0) :
    pendErrs cfg (admitOne env st cb rif)
      = pendErrs cfg st ++ (env cb (st.log.count cb)).toList := by
  unfold pendErrs
  rw [if_pos hM, if_pos hM]
  simp only [admitOne, List.filterMap_append]
  cases h : env cb (st.log.count cb) <;> simp [h]

lemma admit_sink_char (cfg : Config) (env : ℕ → ℕ → Option ε)
    (hM : cfg.maxRetry = 0) (ho : cfg.onError = true) (hL : 1 ≤ cfg.limit)
    (hEnv : ∀ cb a, env cb a = env cb 0) :
    ∀ (cbs : List ℕ) (st : St ε),
      st.promisesCount = st.promises.length →
      st.promisesCount ≤ cfg.limit →
      st.retryQueue = [] →
      (admitLoop cfg env (cbs.map Item.task) st).2 = none
      ∧ (admitLoop cfg env (cbs.map Item.task) st).1.log = st.log ++ cbs
      ∧ (admitLoop cfg env (cbs.map Item.task) st).1.retryQueue = []
      ∧ (admitLoop cfg env (cbs.map Item.task) st).1.promisesCount
          = (admitLoop cfg env (cbs.map Item.task) st).1.promises.length
      ∧ (admitLoop cfg env (cbs.map Item.task) st).1.promisesCount ≤ cfg.limit
      ∧ (admitLoop cfg env (cbs.map Item.task) st).1.processing = st.processing
      ∧ (admitLoop cfg env (cbs.map Item.task) st).1.sink.length
          + (pendErrs cfg (admitLoop cfg env (cbs.map Item.task) st).1).length
        = st.sink.length + (pendErrs cfg st).length
          + (cbs.filter (fun c => (env c 0).isSome)).length := by
  intro cbs
  induction cbs with
  | nil =>
    intro st h1 h2 h3
    exact ⟨rfl, by simp [admitLoop], h3, h1, h2, rfl, by simp [admitLoop]⟩
  | cons cb rest ih =>
    intro st h1 h2 h3
    simp only [List.map_cons, admitLoop]
    have hqsettle : st.promises.filterMap (queued cfg) = [] := by
      apply List.filterMap_eq_nil_iff.mpr
      intro p hp
      unfold queued
      rw [hM]
      simp
    by_cases hlim : cfg.limit ≤ st.promisesCount
    · have hmd : maybeDrain cfg st = ((executeB cfg st).1, none) := by
        unfold maybeDrain
        rw [if_pos hlim]
        have hnone := executeB_none_of_onError cfg st ho
        cases hex : executeB cfg st with
        | mk stE eE =>
          rw [hex] at hnone
          dsimp only at hnone
          rw [hnone]
      rw [hmd, bindAdm_none]
      have hq0 : (executeB cfg st).1.promisesCount = 0 :=
        executeB_count_zero cfg st h1
      have hqe : (executeB cfg st).1.promises = [] := executeB_promises cfg st
      have hqq : (executeB cfg st).1.retryQueue = [] := by
        rw [executeB_retryQueue, hqsettle, List.append_nil, h3]
      have hsinkE : (executeB cfg st).1.sink.length
          = st.sink.length + (pendErrs cfg st).length :=
        executeB_sink_len_of_onError cfg st ho
      have hlogE : (executeB cfg st).1.log = st.log := executeB_log cfg st
      have hprocE : (executeB cfg st).1.processing = st.processing :=
        executeB_processing_of_onError cfg st ho
      have ha1 : (admitOne env (executeB cfg st).1 cb 0).promisesCount
          = (admitOne env (executeB cfg st).1 cb 0).promises.length := by
        simp [admitOne, hq0, hqe]
      have ha2 : (admitOne env (executeB cfg st).1 cb 0).promisesCount ≤ cfg.limit := by
        simp only [admitOne, hq0]
        omega
      have ha3 : (admitOne env (executeB cfg st).1 cb 0).retryQueue = [] := by
        simp [admitOne, hqq]
      have hMrw : cfg.maxRetry = 0 := hM
      obtain ⟨g1, g2, g3, g4, g5, g6, g7⟩ :=
        ih (admitOne env (executeB cfg st).1 cb cfg.maxRetry)
          (by rw [hMrw]; exact ha1) (by rw [hMrw]; exact ha2) (by rw [hMrw]; exact ha3)
      refine ⟨g1, ?_, g3, g4, g5, ?_, ?_⟩
      · rw [g2]
        simp only [admitOne, hlogE]
        simp
      · rw [g6]
        simp only [admitOne]
        exact hprocE
      · rw [g7]
        have hpa : pendErrs cfg (admitOne env (executeB cfg st).1 cb cfg.maxRetry)
            = pendErrs cfg (executeB cfg st).1
              ++ (env cb ((executeB cfg st).1.log.count cb)).toList := by
          exact pendErrs_admitOne cfg env (executeB cfg st).1 cb cfg.maxRetry hM
        rw [hpa]
        have hpeE : pendErrs cfg (executeB cfg st).1 = [] := by
          unfold pendErrs
          rw [if_pos hM, hqe]
          rfl
        rw [hpeE]
        have hsa : (admitOne env (executeB cfg st).1 cb cfg.maxRetry).sink
            = (executeB cfg st).1.sink := rfl
        rw [hsa, hsinkE, hEnv cb ((executeB cfg st).1.log.count cb)]
        cases henv : env cb 0
        · simp [List.filter_cons, henv]
        · simp only [List.nil_append, List.filter_cons, henv, Option.toList,
            Option.isSome, List.length_cons, List.length_append]
          simp
          omega
    · have hmd : maybeDrain cfg st = (st, none) := by
        unfold maybeDrain
        rw [if_neg hlim]
      rw [hmd, bindAdm_none]
      have ha1 : (admitOne env st cb cfg.maxRetry).promisesCount
          = (admitOne env st cb cfg.maxRetry).promises.length := by
        simp [admitOne, h1]
      have ha2 : (admitOne env st cb cfg.maxRetry).promisesCount ≤ cfg.limit := by
        simp only [admitOne]
        omega
      have ha3 : (admitOne env st cb cfg.maxRetry).retryQueue = [] := by
        simp [admitOne, h3]
      obtain ⟨g1, g2, g3, g4, g5, g6, g7⟩ :=
        ih (admitOne env st cb cfg.maxRetry) ha1 ha2 ha3
      refine ⟨g1, ?_, g3, g4, g5, ?_, ?_⟩
      · rw [g2]
        simp [admitOne]
      · rw [g6]
        simp [admitOne]
      · rw [g7]
        rw [pendErrs_admitOne cfg env st cb cfg.maxRetry hM]
        have hsa : (admitOne env st cb cfg.maxRetry).sink = st.sink := rfl
        rw [hsa, hEnv cb (st.log.count cb)]
        cases henv : env cb 0
        · simp [List.filter_cons, henv]
        · simp only [List.filter_cons, henv, Option.toList,
            Option.isSome, List.length_cons, List.length_append]
          simp
          omega

end Limiter

namespace Limiter

variable {ε : Type}

lemma processFuel_sink0 (cfg : Config) (env : ℕ → ℕ → Option ε)
    (hM : cfg.maxRetry = 0) (ho : cfg.onError = true) (hL : 1 ≤ cfg.limit)
    (hEnv : ∀ cb a, env cb a = env cb 0) (ids : List ℕ) :
    (processFuel cfg env 1 (ids.map Item.task) (initSt ε)).2 = PResult.ok
    ∧ (processFuel cfg env 1 (ids.map Item.task) (initSt ε)).1.log = ids.reverse
    ∧ (processFuel cfg env 1 (ids.map Item.task) (initSt ε)).1.sink.length
        = (ids.filter (fun c => (env c 0).isSome)).length := by
  simp only [processFuel]
  have hrev : ((ids.map Item.task : List (Item ε))).reverse
      = (ids.reverse.map Item.task : List (Item ε)) := by
    rw [List.map_reverse]
  rw [hrev]
  obtain ⟨g1, g2, g3, g4, g5, g6, g7⟩ :=
    admit_sink_char cfg env hM ho hL hEnv ids.reverse
      ({ initSt ε with processing := true }) rfl (by simp [initSt]) rfl
  have hflt : ((ids.reverse.filter (fun c => (env c 0).isSome)).length)
      = (ids.filter (fun c => (env c 0).isSome)).length := by
    rw [List.filter_reverse, List.length_reverse]
  cases hal : admitLoop cfg env (List.map Item.task ids.reverse)
      ({ initSt ε with processing := true } : St ε) with
  | mk st1 e? =>
    rw [hal] at g1 g2 g3 g4 g5 g6 g7
    dsimp only at g1 g2 g3 g4 g5 g6 g7
    subst g1
    rw [bindErr_none]
    by_cases hpe : st1.promises = []
    · have hdp : drainPhase cfg st1 = (st1, none) := by
        unfold drainPhase
        rw [hpe]
        simp
      rw [hdp, bindErr_none, if_pos (by rw [g3]; rfl)]
      have hpnil : pendErrs cfg st1 = [] := by
        unfold pendErrs
        rw [if_pos hM, hpe]
        rfl
      rw [hpnil] at g7
      refine ⟨rfl, ?_, ?_⟩
      · show st1.log = ids.reverse
        rw [g2]
        simp [initSt]
      · show st1.sink.length = _
        rw [← hflt]
        have hpz : (pendErrs cfg ({ initSt ε with processing := true } : St ε)).length = 0 := by
          unfold pendErrs
          rw [if_pos hM]
          rfl
        simp only [List.length_nil, Nat.add_zero] at g7
        rw [g7, hpz]
        simp [initSt]
    · have hlen : 0 < st1.promises.length := by
        cases hp : st1.promises
        · exact absurd hp hpe
        · simp
      have hnone := executeB_none_of_onError cfg st1 ho
      have hsinkE := executeB_sink_len_of_onError cfg st1 ho
      have hlogE := executeB_log cfg st1
      have hqE : (executeB cfg st1).1.retryQueue = [] := by
        rw [executeB_retryQueue, g3]
        have : st1.promises.filterMap (queued cfg) = [] := by
          apply List.filterMap_eq_nil_iff.mpr
          intro p hp
          unfold queued
          rw [hM]
          simp
        rw [this]
        rfl
      have hdp : drainPhase cfg st1 = ((executeB cfg st1).1, none) := by
        unfold drainPhase
        rw [if_pos hlen]
        cases hex : executeB cfg st1 with
        | mk stE eE =>
          rw [hex] at hnone
          dsimp only at hnone
          rw [hnone]
      cases hex : executeB cfg st1 with
      | mk stE eE =>
        rw [hex] at hdp hsinkE hlogE hqE
        dsimp only at hsinkE hlogE hqE
        rw [hdp, bindErr_none, if_pos (by rw [hqE]; rfl)]
        refine ⟨rfl, ?_, ?_⟩
        · show stE.log = ids.reverse
          rw [hlogE, g2]
          simp [initSt]
        · show stE.sink.length = _
          rw [hsinkE, g7, ← hflt]
          have hpz : (pendErrs cfg ({ initSt ε with processing := true } : St ε)).length = 0 := by
            unfold pendErrs
            rw [if_pos hM]
            rfl
          rw [hpz]
          simp [initSt]

end Limiter

namespace Limiter

variable {ε : Type}

/-- C3: with `onError` configured (any `maxRetry`), `process` never
rejects; with `maxRetry = 0` every failing task is forwarded to the sink
exactly once while all submitted items are still invoked (the log is the
full reversed submission list); with `maxRetry = M + 1` and always-failing
tasks, the call resolves and the sink receives exactly one
retry-exhaustion error per submitted item, in submission order. -/
theorem onError_never_rejects_and_sinks (cfg : Config) (ho : cfg.onError = true) :
    (∀ (env : ℕ → ℕ → Option ε) (fuel : ℕ) (items : List (Item ε)) (st : St ε)
        (e : LErr ε), (processFuel cfg env fuel items st).2 ≠ PResult.thrown e)
    ∧ (∀ (env : ℕ → ℕ → Option ε) (ids : List ℕ),
        cfg.maxRetry = 0 → 1 ≤ cfg.limit → (∀ cb a, env cb a = env cb 0) →
        (processFuel cfg env 1 (ids.map Item.task) (initSt ε)).2 = PResult.ok
        ∧ (processFuel cfg env 1 (ids.map Item.task) (initSt ε)).1.log = ids.reverse
        ∧ (processFuel cfg env 1 (ids.map Item.task) (initSt ε)).1.sink.length
            = (ids.filter (fun c => (env c 0).isSome)).length)
    ∧ (∀ (env : ℕ → ℕ → Option ε) (errOf : ℕ → ε) (M : ℕ) (ids : List ℕ),
        cfg.maxRetry = M + 1 → 1 ≤ cfg.limit →
        (∀ c a, env c a = some (errOf c)) → ids ≠ [] →
        (processFuel cfg env (M + 2) (ids.map Item.task) (initSt ε)).2 = PResult.ok
        ∧ (processFuel cfg env (M + 2) (ids.map Item.task) (initSt ε)).1.sink
            = ids.map (fun c => LErr.retryExceeded (errOf c))) := by
  refine ⟨fun env fuel items st e => processFuel_no_thrown_of_onError cfg env ho fuel items st e,
          fun env ids hM hL hEnv => processFuel_sink0 cfg env hM ho hL hEnv ids,
          ?_⟩
  intro env errOf M ids hM hL hEnv hne
  have hMr : 0 < cfg.maxRetry := by omega
  rw [show M + 2 = (M + 1) + 1 from rfl, processFuel_succ]
  have hf : Item.falsy ∉ ((ids.map Item.task : List (Item ε))).reverse := by
    intro hh
    rw [List.mem_reverse] at hh
    obtain ⟨c, _, hc⟩ := List.mem_map.mp hh
    cases hc
  obtain ⟨g1, g2, g3, g4, g5, g6, g7, g8⟩ :=
    admitDrain_allfail cfg env errOf hMr hL hEnv
      ((ids.map Item.task : List (Item ε))).reverse
      ({ initSt ε with processing := true }) hf rfl rfl rfl
  cases hal : admitLoop cfg env ((ids.map Item.task : List (Item ε))).reverse
      ({ initSt ε with processing := true } : St ε) with
  | mk st1 e? =>
    rw [hal] at g1 g2 g3 g4 g5 g6 g7 g8
    dsimp only at g1
    subst g1
    rw [bindErr_none]
    cases hdp : drainPhase cfg st1 with
    | mk st2 e2? =>
      rw [hdp] at g2 g3 g4 g5 g6 g7 g8
      dsimp only at g2 g3 g4 g5 g6 g7 g8
      subst g2
      rw [bindErr_none]
      have hql : st2.retryQueue
          = (ids.map (fun c => RItem.mk c (M + 1) (errOf c))).reverse := by
        rw [g3, List.map_reverse, List.map_map]
        congr 1
        apply List.map_congr_left
        intro c _
        show itemInfo cfg errOf (Item.task c) = RItem.mk c (M + 1) (errOf c)
        unfold itemInfo
        rw [show Item.cbOf (Item.task c : Item ε) = c from rfl,
            show Item.rifOf cfg (Item.task c : Item ε) = cfg.maxRetry from rfl, hM]
      have hqn : ¬ st2.retryQueue.length = 0 := by
        rw [hql]
        cases ids with
        | nil => exact absurd rfl hne
        | cons a b => simp
      rw [if_neg hqn]
      have hcq : st2.retryQueue.reverse = ids.map (fun c => RItem.mk c (M + 1) (errOf c)) := by
        rw [hql, List.reverse_reverse]
      have hpos : ∀ it ∈ ids.map (fun c => RItem.mk c (M + 1) (errOf c)), 0 < it.retries := by
        intro it hit
        obtain ⟨c, _, hc⟩ := List.mem_map.mp hit
        rw [← hc]
        show 0 < M + 1
        omega
      rw [hcq, collectLoop_pos cfg _ _ [] hpos, bindCollect_none]
      have hdec : (ids.map (fun c => RItem.mk c (M + 1) (errOf c))).map
          (fun it => RItem.mk it.callback (it.retries - 1) it.error)
          = ids.map (fun c => RItem.mk c M (errOf c)) := by
        rw [List.map_map]
        rfl
      have hri : ¬ (([] : List (RItem ε))
          ++ (ids.map (fun c => RItem.mk c (M + 1) (errOf c))).map
              (fun it => RItem.mk it.callback (it.retries - 1) it.error)).length = 0 := by
        rw [List.nil_append, hdec]
        cases ids with
        | nil => exact absurd rfl hne
        | cons a b => simp
      rw [if_neg hri]
      rw [List.nil_append, hdec]
      have hrsne : ids.map (fun c => RItem.mk c M (errOf c)) ≠ [] := by
        cases ids with
        | nil => exact absurd rfl hne
        | cons a b => simp
      have hrsr : ∀ it ∈ ids.map (fun c => RItem.mk c M (errOf c)), it.retries = M := by
        intro it hit
        obtain ⟨c, _, hc⟩ := List.mem_map.mp hit
        rw [← hc]
      obtain ⟨k1, k2, k3, k4⟩ :=
        cascade_sink cfg env errOf ho hMr hL hEnv M
          (ids.map (fun c => RItem.mk c M (errOf c)))
          { st2 with retryQueue := [] } hrsne hrsr g5 g4 rfl
      cases hrec : processFuel cfg env (M + 1)
          ((ids.map (fun c => RItem.mk c M (errOf c))).map Item.retry)
          { st2 with retryQueue := [] } with
      | mk st4 r4 =>
        rw [hrec] at k1 k2 k3 k4
        dsimp only at k1 k2 k3 k4
        subst k1
        rw [afterOk_ok]
        refine ⟨rfl, ?_⟩
        show st4.sink = _
        rw [k3]
        show ({ st2 with retryQueue := [] } : St ε).sink ++ _ = _
        show st2.sink ++ _ = _
        rw [g7]
        show ({ initSt ε with processing := true } : St ε).sink ++ _ = _
        show ([] : List (LErr ε)) ++ _ = _
        rw [List.nil_append, List.map_map]
        rfl

/-- Witness for C3: limit 2, maxRetry 0, `onError` set, four tasks of
which the two even-numbered ones fail — the run resolves and the sink is
called exactly twice. -/
theorem onError_never_rejects_and_sinks_witness :
    ((Config.mk 2 0 true).onError = true)
    ∧ (processFuel (Config.mk 2 0 true)
        (fun c _ => if c % 2 = 0 then some c else (none : Option ℕ)) 1
        ([1, 2, 3, 4].map Item.task) (initSt ℕ)).2 = PResult.ok
    ∧ (processFuel (Config.mk 2 0 true)
        (fun c _ => if c % 2 = 0 then some c else (none : Option ℕ)) 1
        ([1, 2, 3, 4].map Item.task) (initSt ℕ)).1.sink.length
      = (([1, 2, 3, 4] : List ℕ).filter
          (fun c => ((if c % 2 = 0 then some c else (none : Option ℕ))).isSome)).length :=
  ⟨rfl,
   ((onError_never_rejects_and_sinks (Config.mk 2 0 true) rfl).2.1
      (fun c _ => if c % 2 = 0 then some c else (none : Option ℕ)) [1, 2, 3, 4]
      rfl (by decide) (fun cb a => rfl)).1,
   ((onError_never_rejects_and_sinks (Config.mk 2 0 true) rfl).2.1
      (fun c _ => if c % 2 = 0 then some c else (none : Option ℕ)) [1, 2, 3, 4]
      rfl (by decide) (fun cb a => rfl)).2.2⟩

end Limiter

namespace Limiter

variable {ε : Type}

end Limiter

namespace Limiter

variable {ε : Type}

end Limiter

namespace Limiter

variable {ε : Type}

lemma maybeDrain_log (cfg : Config) (st : St ε) :
    (maybeDrain cfg st).1.log = st.log := by
  unfold maybeDrain
  split
  · exact executeB_log cfg st
  · rfl

lemma admitLoop_log_extends (cfg : Config) (env : ℕ → ℕ → Option ε) :
    ∀ (l : List (Item ε)) (st : St ε),
      ∃ t, (admitLoop cfg env l st).1.log = st.log ++ t := by
  intro l
  induction l with
  | nil => exact fun st => ⟨[], by simp [admitLoop]⟩
  | cons i rest ih =>
    intro st
    cases i with
    | falsy => exact ⟨[], by simp [admitLoop]⟩
    | task cb =>
      simp only [admitLoop]
      cases hmd : maybeDrain cfg st with
      | mk st1 e? =>
        have hlg : st1.log = st.log := by
          have := maybeDrain_log cfg st
          rw [hmd] at this
          exact this
        cases e? with
        | some e => exact ⟨[], by rw [bindAdm_some]; simp [hlg]⟩
        | none =>
          rw [bindAdm_none]
          obtain ⟨t, ht⟩ := ih (admitOne env st1 cb cfg.maxRetry)
          refine ⟨[cb] ++ t, ?_⟩
          rw [ht]
          simp only [admitOne, hlg]
          simp
    | retry r =>
      simp only [admitLoop]
      cases hmd : maybeDrain cfg st with
      | mk st1 e? =>
        have hlg : st1.log = st.log := by
          have := maybeDrain_log cfg st
          rw [hmd] at this
          exact this
        cases e? with
        | some e => exact ⟨[], by rw [bindAdm_some]; simp [hlg]⟩
        | none =>
          rw [bindAdm_none]
          obtain ⟨t, ht⟩ := ih (admitOne env st1 r.callback r.retries)
          refine ⟨[r.callback] ++ t, ?_⟩
          rw [ht]
          simp only [admitOne, hlg]
          simp

lemma drainPhase_log (cfg : Config) (st : St ε) :
    (drainPhase cfg st).1.log = st.log := by
  unfold drainPhase
  split
  · exact executeB_log cfg st
  · rfl

lemma collectLoop_log (cfg : Config) :
    ∀ (q : List (RItem ε)) (st : St ε) (acc : List (RItem ε)),
      (collectLoop cfg q st acc).1.log = st.log := by
  intro q
  induction q with
  | nil => exact fun st acc => rfl
  | cons it rest ih =>
    intro st acc
    simp only [collectLoop]
    by_cases hr : 0 < it.retries
    · rw [if_pos hr]
      exact ih _ _
    · rw [if_neg hr]
      by_cases ho : cfg.onError
      · rw [if_pos ho]
        exact ih _ _
      · rw [if_neg ho]

lemma processFuel_log_extends (cfg : Config) (env : ℕ → ℕ → Option ε) :
    ∀ (fuel : ℕ) (items : List (Item ε)) (st : St ε),
      ∃ t, (processFuel cfg env fuel items st).1.log = st.log ++ t := by
  intro fuel
  induction fuel with
  | zero => exact fun items st => ⟨[], by simp [processFuel]⟩
  | succ fuel ih =>
    intro items st
    simp only [processFuel]
    obtain ⟨t1, ht1⟩ := admitLoop_log_extends cfg env items.reverse
      { st with processing := true }
    cases hal : admitLoop cfg env items.reverse { st with processing := true } with
    | mk st1 e? =>
      rw [hal] at ht1
      dsimp only at ht1
      cases e? with
      | some e => exact ⟨t1, by rw [bindErr_some]; exact ht1⟩
      | none =>
        rw [bindErr_none]
        cases hdp : drainPhase cfg st1 with
        | mk st2 e2? =>
          have ht2 : st2.log = st.log ++ t1 := by
            have := drainPhase_log cfg st1
            rw [hdp] at this
            dsimp only at this
            rw [this, ht1]
          cases e2? with
          | some e => exact ⟨t1, by rw [bindErr_some]; exact ht2⟩
          | none =>
            rw [bindErr_none]
            by_cases hrq : st2.retryQueue.length = 0
            · rw [if_pos hrq]
              exact ⟨t1, ht2⟩
            · rw [if_neg hrq]
              cases hcl : collectLoop cfg st2.retryQueue.reverse
                  { st2 with retryQueue := [] } [] with
              | mk st3 p3 =>
                have ht3 : st3.log = st.log ++ t1 := by
                  have := collectLoop_log cfg st2.retryQueue.reverse
                    { st2 with retryQueue := [] } []
                  rw [hcl] at this
                  dsimp only at this
                  rw [this]
                  exact ht2
                cases p3 with
                | mk retryItems e3? =>
                  cases e3? with
                  | some e => exact ⟨t1, by rw [bindCollect_some]; exact ht3⟩
                  | none =>
                    rw [bindCollect_none]
                    by_cases hri : retryItems.length = 0
                    · rw [if_pos hri]
                      exact ⟨t1, ht3⟩
                    · rw [if_neg hri]
                      obtain ⟨t4, ht4⟩ := ih (retryItems.map Item.retry) st3
                      cases hrec : processFuel cfg env fuel (retryItems.map Item.retry) st3 with
                      | mk st4 r4 =>
                        rw [hrec] at ht4
                        dsimp only at ht4
                        have ht4' : st4.log = st.log ++ (t1 ++ t4) := by
                          rw [ht4, ht3, List.append_assoc]
                        cases r4 with
                        | ok => exact ⟨t1 ++ t4, by rw [afterOk_ok]; exact ht4'⟩
                        | thrown e => exact ⟨t1 ++ t4, by rw [afterOk_thrown]; exact ht4'⟩
                        | outOfFuel => exact ⟨t1 ++ t4, by rw [afterOk_outOfFuel]; exact ht4'⟩

end Limiter

namespace Limiter

variable {ε : Type}

lemma admitLoop_first_task (cfg : Config) (env : ℕ → ℕ → Option ε) (cb : ℕ)
    (rest : List (Item ε)) (st : St ε) (hlt : st.promisesCount < cfg.limit) :
    ∃ t, (admitLoop cfg env (Item.task cb :: rest) st).1.log = st.log ++ cb :: t := by
  simp only [admitLoop]
  have hmd : maybeDrain cfg st = (st, none) := by
    unfold maybeDrain
    rw [if_neg (by omega)]
  rw [hmd, bindAdm_none]
  obtain ⟨t, ht⟩ := admitLoop_log_extends cfg env rest (admitOne env st cb cfg.maxRetry)
  refine ⟨t, ?_⟩
  rw [ht]
  simp [admitOne]

lemma processFuel_tail_log (cfg : Config) (env : ℕ → ℕ → Option ε)
    (fuel : ℕ) (items : List (Item ε)) (st : St ε) :
    ∃ t, (processFuel cfg env (fuel + 1) items st).1.log
      = (admitLoop cfg env items.reverse { st with processing := true }).1.log ++ t := by
  simp only [processFuel]
  cases hal : admitLoop cfg env items.reverse { st with processing := true } with
  | mk st1 e? =>
    cases e? with
    | some e => exact ⟨[], by rw [bindErr_some]; simp⟩
    | none =>
      rw [bindErr_none]
      cases hdp : drainPhase cfg st1 with
      | mk st2 e2? =>
        have ht2 : st2.log = st1.log := by
          have := drainPhase_log cfg st1
          rw [hdp] at this
          exact this
        cases e2? with
        | some e => exact ⟨[], by rw [bindErr_some]; simp [ht2]⟩
        | none =>
          rw [bindErr_none]
          by_cases hrq : st2.retryQueue.length = 0
          · rw [if_pos hrq]
            exact ⟨[], by simp [ht2]⟩
          · rw [if_neg hrq]
            cases hcl : collectLoop cfg st2.retryQueue.reverse
                { st2 with retryQueue := [] } [] with
            | mk st3 p3 =>
              have ht3 : st3.log = st1.log := by
                have := collectLoop_log cfg st2.retryQueue.reverse
                  { st2 with retryQueue := [] } []
                rw [hcl] at this
                dsimp only at this
                rw [this]
                exact ht2
              cases p3 with
              | mk retryItems e3? =>
                cases e3? with
                | some e => exact ⟨[], by rw [bindCollect_some]; simp [ht3]⟩
                | none =>
                  rw [bindCollect_none]
                  by_cases hri : retryItems.length = 0
                  · rw [if_pos hri]
                    exact ⟨[], by simp [ht3]⟩
                  · rw [if_neg hri]
                    obtain ⟨t4, ht4⟩ := processFuel_log_extends cfg env fuel
                      (retryItems.map Item.retry) st3
                    cases hrec : processFuel cfg env fuel (retryItems.map Item.retry) st3 with
                    | mk st4 r4 =>
                      rw [hrec] at ht4
                      dsimp only at ht4
                      have ht4' : st4.log = st1.log ++ t4 := by rw [ht4, ht3]
                      cases r4 with
                      | ok => exact ⟨t4, by rw [afterOk_ok]; exact ht4'⟩
                      | thrown e => exact ⟨t4, by rw [afterOk_thrown]; exact ht4'⟩
                      | outOfFuel => exact ⟨t4, by rw [afterOk_outOfFuel]; exact ht4'⟩

/-- C5: within one `process` call, tasks begin execution in the reverse
of their submission order.  For every submitted sequence and any
environment, the last-submitted task is the first entry of the
invocation log; and whenever admission runs to completion (`onError`
sink configured, no retries), the whole log is exactly the reversed
submission sequence, whose head is the last-submitted task. -/
theorem tasks_start_in_reverse_submission_order (cfg : Config)
    (env : ℕ → ℕ → Option ε) (ids : List ℕ) (hL : 1 ≤ cfg.limit) :
    (∀ (fuel : ℕ) (pre : List ℕ) (b : ℕ), ids = pre ++ [b] →
        ∃ t, (processFuel cfg env (fuel + 1) (ids.map Item.task) (initSt ε)).1.log
          = b :: t)
    ∧ (cfg.maxRetry = 0 → cfg.onError = true → (∀ cb a, env cb a = env cb 0) →
        (processFuel cfg env 1 (ids.map Item.task) (initSt ε)).1.log = ids.reverse
        ∧ (processFuel cfg env 1 (ids.map Item.task) (initSt ε)).1.log.head?
            = ids.getLast?) := by
  constructor
  · intro fuel pre b hids
    obtain ⟨t2, ht2⟩ := processFuel_tail_log cfg env fuel (ids.map Item.task) (initSt ε)
    have hrev : ((ids.map Item.task : List (Item ε))).reverse
        = Item.task b :: (pre.map Item.task).reverse := by
      rw [hids]
      simp
    rw [hrev] at ht2
    obtain ⟨t1, ht1⟩ := admitLoop_first_task cfg env b (pre.map Item.task).reverse
      ({ initSt ε with processing := true }) (by show 0 < cfg.limit; omega)
    rw [ht1] at ht2
    refine ⟨t1 ++ t2, ?_⟩
    rw [ht2]
    rfl
  · intro hM ho hEnv
    obtain ⟨-, h2, -⟩ := processFuel_sink0 cfg env hM ho hL hEnv ids
    exact ⟨h2, by rw [h2, List.head?_reverse]⟩

/-- Witness for C5: three succeeding tasks — the log is the reversed
submission list, starting with the last-submitted task. -/
theorem tasks_start_in_reverse_submission_order_witness :
    (∃ t, (processFuel (Config.mk 2 0 true) (fun _ _ => (none : Option ℕ)) 1
        ([1, 2, 3].map Item.task) (initSt ℕ)).1.log = 3 :: t)
    ∧ (processFuel (Config.mk 2 0 true) (fun _ _ => (none : Option ℕ)) 1
        ([1, 2, 3].map Item.task) (initSt ℕ)).1.log = [3, 2, 1] :=
  ⟨(tasks_start_in_reverse_submission_order (Config.mk 2 0 true)
      (fun _ _ => (none : Option ℕ)) [1, 2, 3] (by decide)).1 0 [1, 2] 3 rfl,
   ((tasks_start_in_reverse_submission_order (Config.mk 2 0 true)
      (fun _ _ => (none : Option ℕ)) [1, 2, 3] (by decide)).2 rfl rfl
      (fun cb a => rfl)).1⟩

end Limiter
